import Mathlib

/-!
# `usu::vector<T>` (src/vector.hpp): a shallow embedding and its contract

The container of `vector.hpp` is embedded as a record of its four private
members.  The backing array behind the `std::shared_ptr<T[]>` is a `List T`
whose length is the number of slots that were really allocated; it is kept
apart from `capacityVal`, because the source updates the two separately.

* `size_type` is `std::size_t`: a natural number below `SIZE_MOD = 2 ^ 64`,
  every `++`, `* 2` is taken modulo `SIZE_MOD`.
* A buffer access outside the allocated slots is undefined behaviour in C++;
  here it is the outcome `Outcome.undefined`.
* Reaching the end of a function that returns a value without a `return`
  statement is undefined behaviour too; such a call has the outcome `none`.
* `throw std::range_error` is the outcome `Outcome.range_error s`, where `s`
  is the container state at the throw.
* `std::make_shared<T[]>(n)` value-initialises `n` slots: `n` copies of
  `default`.  Allocation failure is not modelled.
-/

namespace usu

/-- Number of values of `std::size_t`; `size_type` arithmetic wraps modulo it. -/
def SIZE_MOD : Nat := 2 ^ 64

/-- Private members of `usu::vector<T>` (vector.hpp:76-80). -/
structure vector (T : Type) where
  capacityVal : Nat
  sizeVal : Nat
  data : List T
  resize_func_ : Nat → Nat

/-- Result of calling a member function on a container. -/
inductive Outcome (T : Type) (α : Type) where
  /-- Normal return, with the container state after the call. -/
  | ok (v : vector T) (a : α)
  /-- A `std::range_error` left the call; `v` is the state at the throw. -/
  | range_error (v : vector T)
  /-- The call accessed the buffer outside its allocated slots. -/
  | undefined

/-- Sequencing of two calls: the second runs only after a normal return. -/
def Outcome.bind {T α β : Type} (o : Outcome T α) (f : vector T → α → Outcome T β) :
    Outcome T β :=
  match o with
  | .ok v a => f v a
  | .range_error v => .range_error v
  | .undefined => .undefined

/-- Container state after a normal return. -/
def Outcome.state? {T α : Type} : Outcome T α → Option (vector T)
  | .ok v _ => some v
  | _ => none

/-- Reading slot `i` of a buffer; `none` outside the allocated slots. -/
def buf_read {T : Type} (d : List T) (i : Nat) : Option T := d[i]?

/-- Writing slot `i` of a buffer; `none` outside the allocated slots. -/
def buf_write {T : Type} (d : List T) (i : Nat) (x : T) : Option (List T) :=
  if i < d.length then some (d.set i x) else none

/-- Value-initialised array of `n` slots: `std::make_shared<T[]>(n)`. -/
def make_shared (T : Type) [Inhabited T] (n : Nat) : List T := List.replicate n default

/-- Default growth policy, the lambda of vector.hpp:115-118. -/
def default_policy : Nat → Nat := fun currentCapacity => currentCapacity * 2 % SIZE_MOD

/-- Default constructor `vector()` (vector.hpp:109-119). -/
def vector.ctor {T : Type} [Inhabited T] : vector T :=
  { capacityVal := 10
    sizeVal := 0
    data := make_shared T 10
    resize_func_ := default_policy }

/-- Sized constructor `vector(size_type incomingSize)` (vector.hpp:121-130): it delegates
to `vector()`, then overwrites `sizeVal` and, above 10, `capacityVal`; the buffer
allocated by `vector()` is kept. -/
def vector.ctor_size {T : Type} [Inhabited T] (incomingSize : Nat) : vector T :=
  let v : vector T := vector.ctor
  let v := { v with sizeVal := incomingSize }
  if incomingSize > 10 then { v with capacityVal := incomingSize * 2 % SIZE_MOD } else v

/-- Constructor `vector(resize_type resize)` (vector.hpp:132-137). -/
def vector.ctor_resize {T : Type} [Inhabited T] (resize : Nat → Nat) : vector T :=
  { (vector.ctor : vector T) with resize_func_ := resize }

/-- Constructor `vector(size_type initialSize, resize_type resize)` (vector.hpp:139-149). -/
def vector.ctor_size_resize {T : Type} [Inhabited T] (initialSize : Nat) (resize : Nat → Nat) :
    vector T :=
  let v : vector T := vector.ctor
  let v := if initialSize > 10 then { v with capacityVal := initialSize * 2 % SIZE_MOD } else v
  { v with sizeVal := initialSize, resize_func_ := resize }

/-- Copy loop of `resize` (vector.hpp:177-180): `n` iterations remain, the loop variable
is `i`; each iteration performs `new_data[i] = data[i]`. -/
def resize_copy {T : Type} (data : List T) : Nat → Nat → List T → Option (List T)
  | 0, _, new_data => some new_data
  | n + 1, i, new_data =>
    match buf_read data i with
    | none => none
    | some x =>
      match buf_write new_data i x with
      | none => none
      | some nd => resize_copy data n (i + 1) nd

/-- Member `resize()` (vector.hpp:172-182). -/
def vector.resize {T : Type} [Inhabited T] (v : vector T) : Outcome T Unit :=
  let capacityVal := v.resize_func_ v.sizeVal
  let new_data := make_shared T capacityVal
  match resize_copy v.data v.sizeVal 0 new_data with
  | none => .undefined
  | some nd => .ok { v with capacityVal := capacityVal, data := nd } ()

/-- The guarded call `if (sizeVal == capacityVal) resize();` of `add` and `insert`. -/
def vector.resize_if_full {T : Type} [Inhabited T] (v : vector T) : Outcome T Unit :=
  if v.sizeVal = v.capacityVal then v.resize else .ok v ()

/-- Member `add(T value)` (vector.hpp:184-193). -/
def vector.add {T : Type} [Inhabited T] (v : vector T) (value : T) : Outcome T Unit :=
  v.resize_if_full.bind fun v1 _ =>
    match buf_write v1.data v1.sizeVal value with
    | none => .undefined
    | some d => .ok { v1 with data := d, sizeVal := (v1.sizeVal + 1) % SIZE_MOD } ()

/-- Shift loop of `insert` (vector.hpp:206-209), by recursion on the loop variable `i`,
which runs downward from `sizeVal` while `i > index`; the body is `data[i] = data[i - 1]`. -/
def insert_shift {T : Type} (index : Nat) : Nat → List T → Option (List T)
  | 0, d => some d
  | i + 1, d =>
    if i + 1 > index then
      match buf_read d i with
      | none => none
      | some x =>
        match buf_write d (i + 1) x with
        | none => none
        | some d1 => insert_shift index i d1
    else some d

/-- Member `insert(size_type index, T value)` (vector.hpp:195-212). -/
def vector.insert {T : Type} [Inhabited T] (v : vector T) (index : Nat) (value : T) :
    Outcome T Unit :=
  if index > v.sizeVal then .range_error v
  else
    v.resize_if_full.bind fun v1 _ =>
      match insert_shift index v1.sizeVal v1.data with
      | none => .undefined
      | some d =>
        match buf_write d index value with
        | none => .undefined
        | some d1 => .ok { v1 with data := d1, sizeVal := (v1.sizeVal + 1) % SIZE_MOD } ()

/-- Shift loop of `remove` (vector.hpp:221-224): `n` iterations remain, the loop variable
is `i`, running upward while `i < sizeVal - 1`; the body is `data[i] = data[i + 1]`. -/
def remove_shift {T : Type} : Nat → Nat → List T → Option (List T)
  | 0, _, d => some d
  | n + 1, i, d =>
    match buf_read d (i + 1) with
    | none => none
    | some x =>
      match buf_write d i x with
      | none => none
      | some d1 => remove_shift n (i + 1) d1

/-- Member `remove(size_type index)` (vector.hpp:214-226).  Past the guard `sizeVal ≥ 1`,
so `sizeVal - 1` and `--sizeVal` do not wrap; the loop runs `sizeVal - 1 - index` times. -/
def vector.remove {T : Type} (v : vector T) (index : Nat) : Outcome T Unit :=
  if index ≥ v.sizeVal then .range_error v
  else
    match remove_shift (v.sizeVal - 1 - index) index v.data with
    | none => .undefined
    | some d => .ok { v with data := d, sizeVal := v.sizeVal - 1 } ()

/-- Member `clear()` (vector.hpp:228-232). -/
def vector.clear {T : Type} (v : vector T) : Outcome T Unit :=
  .ok { v with sizeVal := 0 } ()

/-- Member `operator[](size_type index)` (vector.hpp:84-92).  The returned reference
`data[index]` is the slot number `index` of the buffer. -/
def vector.operator_subscript {T : Type} (v : vector T) (index : Nat) : Outcome T Nat :=
  if index ≥ v.sizeVal then .range_error v
  else if index < v.data.length then .ok v index
  else .undefined

/-- Reading through a reference returned by `operator[]`. -/
def vector.load {T : Type} (v : vector T) (ref : Nat) : Option T := buf_read v.data ref

/-- Assigning through a reference returned by `operator[]`. -/
def vector.store {T : Type} (v : vector T) (ref : Nat) (x : T) : Option (vector T) :=
  (buf_write v.data ref x).map fun d => { v with data := d }

/-- The expression `container[index]` used as a value: the state after the call and
the value read. -/
def vector.read_at {T : Type} (v : vector T) (index : Nat) : Outcome T T :=
  (v.operator_subscript index).bind fun v1 ref =>
    match v1.load ref with
    | none => .undefined
    | some x => .ok v1 x

/-- The statement `container[index] = x`. -/
def vector.write_at {T : Type} (v : vector T) (index : Nat) (x : T) : Outcome T Unit :=
  (v.operator_subscript index).bind fun v1 ref =>
    match v1.store ref x with
    | none => .undefined
    | some v2 => .ok v2 ()

/-- The range-for loop `for (const auto& item : list) add(item);` of the literal-sequence
constructors (vector.hpp:155-158, 166-169). -/
def add_all {T : Type} [Inhabited T] (v : vector T) : List T → Outcome T Unit
  | [] => .ok v ()
  | item :: rest => (v.add item).bind fun v1 _ => add_all v1 rest

/-- Constructor `vector(std::initializer_list<T> list)` (vector.hpp:151-159). -/
def vector.ctor_list {T : Type} [Inhabited T] (list : List T) : Outcome T Unit :=
  add_all (vector.ctor : vector T) list

/-- Constructor `vector(std::initializer_list<T> list, resize_type resize)`
(vector.hpp:161-170). -/
def vector.ctor_list_resize {T : Type} [Inhabited T] (list : List T) (resize : Nat → Nat) :
    Outcome T Unit :=
  add_all (vector.ctor_resize resize : vector T) list

/-- Private members of `vector<T>::iterator` (vector.hpp:68-70); `data = none` is the
null pointer. -/
structure iterator (T : Type) where
  pos : Nat
  data : Option (List T)

/-- Constructor `iterator(pointer ptr)` (vector.hpp:240-245). -/
def iterator.ctor_ptr {T : Type} (ptr : Option (List T)) : iterator T :=
  { data := ptr, pos := 0 }

/-- Constructor `iterator(size_type newPos, pointer ptr)` (vector.hpp:247-252). -/
def iterator.ctor_pos_ptr {T : Type} (newPos : Nat) (ptr : Option (List T)) : iterator T :=
  { data := ptr, pos := newPos }

/-- Member `begin()` (vector.hpp:94-99). -/
def vector.begin {T : Type} (v : vector T) : iterator T := iterator.ctor_ptr (some v.data)

/-- Member `end()` (vector.hpp:101-106). -/
def vector.end_ {T : Type} (v : vector T) : iterator T :=
  iterator.ctor_pos_ptr v.sizeVal (some v.data)

/-- Pre-increment `operator++()` (vector.hpp:256-261): the iterator after `pos++`. -/
def iterator.operator_inc {T : Type} (it : iterator T) : iterator T :=
  { it with pos := (it.pos + 1) % SIZE_MOD }

/-- Dereference `operator*()` (vector.hpp:331-335): `data[pos]`, `none` when the pointer
is null or `pos` is outside the allocated slots. -/
def iterator.operator_deref {T : Type} (it : iterator T) : Option T :=
  match it.data with
  | none => none
  | some d => buf_read d it.pos

/-- Comparison `operator==` (vector.hpp:346-350). -/
def iterator.operator_eq {T : Type} (a other : iterator T) : Bool := a.pos == other.pos

/-- Comparison `operator!=` (vector.hpp:354-358). -/
def iterator.operator_ne {T : Type} (a other : iterator T) : Bool := a.pos != other.pos

/-- The client loop `for (it = first; it != last; ++it) visit(*it);` run for at most
`fuel` iterations: the values visited, or `none` when a dereference is outside the buffer
or the loop has not stopped after `fuel` dereferences. -/
def traverse {T : Type} : Nat → iterator T → iterator T → Option (List T)
  | 0, it, last => if it.operator_ne last then none else some []
  | fuel + 1, it, last =>
    if it.operator_ne last then
      match it.operator_deref with
      | none => none
      | some x => (traverse fuel it.operator_inc last).map (x :: ·)
    else some []

/-! ## Specification vocabulary -/

/-- Logical contents: the elements at indices `[0, sizeVal)`. -/
def vector.elems {T : Type} (v : vector T) : List T := v.data.take v.sizeVal

/-- Well-formed state: `size ≤ capacity` and the buffer has `capacity` slots. -/
def vector.WellFormed {T : Type} (v : vector T) : Prop :=
  v.sizeVal ≤ v.capacityVal ∧ v.data.length = v.capacityVal

/-- The members are values of their C++ types: `capacityVal` and `sizeVal` are
`size_type` values and the growth policy maps `size_type` to `size_type`. -/
def vector.InRange {T : Type} (v : vector T) : Prop :=
  v.capacityVal < SIZE_MOD ∧ v.sizeVal < SIZE_MOD ∧
    ∀ n, n < SIZE_MOD → v.resize_func_ n < SIZE_MOD

/-- The growth policy returns more than `size` when the container is full. -/
def vector.GrowsWhenFull {T : Type} (v : vector T) : Prop :=
  v.sizeVal = v.capacityVal → v.sizeVal < v.resize_func_ v.sizeVal

/-- Decidability of well-formedness, for evaluating it on concrete states. -/
instance {T : Type} (v : vector T) : Decidable v.WellFormed :=
  inferInstanceAs (Decidable (v.sizeVal ≤ v.capacityVal ∧ v.data.length = v.capacityVal))

/-- Decidability of the growth condition, for evaluating it on concrete states. -/
instance {T : Type} (v : vector T) : Decidable v.GrowsWhenFull :=
  inferInstanceAs (Decidable (v.sizeVal = v.capacityVal → v.sizeVal < v.resize_func_ v.sizeVal))

/-- The outcome of a call with the stored growth policy replaced by `g` in the state. -/
def Outcome.with_policy {T α : Type} (o : Outcome T α) (g : Nat → Nat) : Outcome T α :=
  match o with
  | .ok v a => .ok { v with resize_func_ := g } a
  | .range_error v => .range_error { v with resize_func_ := g }
  | .undefined => .undefined

/-- After the guarded `resize()` of `add` and `insert` the buffer holds slot `sizeVal`:
a full container needs `sizeVal` old slots to copy from and a policy result above
`sizeVal`; any other container needs more than `sizeVal` slots. -/
def vector.has_room {T : Type} (v : vector T) : Prop :=
  if v.sizeVal = v.capacityVal then
    v.sizeVal ≤ v.data.length ∧ v.sizeVal < v.resize_func_ v.sizeVal
  else v.sizeVal < v.data.length

/-- State invariant of the containers that grow by the default doubling policy from the
initial capacity 10: well-formed, default policy, capacity `10 * 2 ^ k` with `k ≤ 60`
(`10 * 2 ^ 60` is the largest such capacity that is a `size_type` value). -/
def vector.DoublingInv {T : Type} (v : vector T) : Prop :=
  v.WellFormed ∧ v.resize_func_ = default_policy ∧ ∃ k, k ≤ 60 ∧ v.capacityVal = 10 * 2 ^ k

/-! ## Sample states -/

/-- A full, well-formed container `[1, 2, 3]` with the default policy. -/
def sample_full : vector Nat :=
  { capacityVal := 3, sizeVal := 3, data := [1, 2, 3], resize_func_ := default_policy }

/-- A well-formed container `[1, 2, 3]` with two free slots. -/
def sample_spare : vector Nat :=
  { capacityVal := 5, sizeVal := 3, data := [1, 2, 3, 8, 9], resize_func_ := default_policy }

/-- A full container `[0, .., 9]` whose growth policy always returns 0. -/
def sample_zero_policy : vector Nat :=
  { capacityVal := 10, sizeVal := 10, data := List.range 10, resize_func_ := fun _ => 0 }

/-- The container made by the literal `{1, 2, 3}` with the default policy. -/
def sample_literal : vector Nat :=
  { capacityVal := 10, sizeVal := 3, data := [1, 2, 3, 0, 0, 0, 0, 0, 0, 0],
    resize_func_ := default_policy }

/-! ## Further members and client sequences -/

/-- Default constructor `iterator()` (vector.hpp:234-238): it delegates to
`iterator(nullptr)`. -/
def iterator.ctor {T : Type} : iterator T := iterator.ctor_ptr none

/-- Move constructor `iterator(iterator&& obj)` (vector.hpp:308-316): the new iterator and
the state left in `obj`. -/
def iterator.move_ctor {T : Type} (obj : iterator T) : iterator T × iterator T :=
  let this : iterator T := { pos := obj.pos, data := obj.data }
  (this, { pos := 0, data := none })

/-- The statements of the body of `operator=(iterator&& rhs)` (vector.hpp:323-327) on a
memory of iterator objects, `this` and `rhs` being the addresses of the two operands:
unless they are the same object, `std::swap(this->pos, rhs.pos)` then
`std::swap(this->data, rhs.data)`. -/
def iterator.move_assign_body {T : Type} (mem : Nat → iterator T) (this rhs : Nat) :
    Nat → iterator T :=
  if this ≠ rhs then
    let mem1 := Function.update (Function.update mem this { mem this with pos := (mem rhs).pos })
      rhs { mem rhs with pos := (mem this).pos }
    Function.update
      (Function.update mem1 this { mem1 this with data := (mem1 rhs).data })
      rhs { mem1 rhs with data := (mem1 this).data }
  else mem

/-- Move assignment `operator=(iterator&& rhs)` (vector.hpp:318-328): the memory after the
call and the `iterator&` returned.  After the statements of the body the function ends:
it is declared to return `iterator&` and has no `return` statement, so no reference is
returned and the call is undefined behaviour, `none`, for every operand. -/
def iterator.operator_move_assign {T : Type} (mem : Nat → iterator T) (this rhs : Nat) :
    Option ((Nat → iterator T) × Nat) :=
  let after := iterator.move_assign_body mem this rhs
  let returned : Option Nat := none
  returned.map fun ref => (after, ref)

/-- Two iterator objects for the move examples: a destination at position 5 over `[1]` at
address 0 and a source at position 2 over `[7, 8]` at address 1. -/
def sample_iterators : Nat → iterator Nat := fun a =>
  if a = 0 then { pos := 5, data := some [1] }
  else if a = 1 then { pos := 2, data := some [7, 8] }
  else iterator.ctor

/-- A full container `[1, 2, 3]` whose policy returns exactly `size + 1`. -/
def sample_step_policy : vector Nat :=
  { capacityVal := 3, sizeVal := 3, data := [1, 2, 3],
    resize_func_ := fun n => (n + 1) % SIZE_MOD }

/-- A full container `[0, .., 9]` whose growth policy returns its argument. -/
def sample_same_policy : vector Nat :=
  { capacityVal := 10, sizeVal := 10, data := List.range 10, resize_func_ := fun n => n }

/-- The capacity is the least `10 * 2 ^ j` that is at least the size, on top of the
doubling invariant. -/
def vector.TightInv {T : Type} (v : vector T) : Prop :=
  v.DoublingInv ∧ ∀ j, v.sizeVal ≤ 10 * 2 ^ j → v.capacityVal ≤ 10 * 2 ^ j

/-- A call of one of the public mutating members. -/
inductive Op (T : Type) where
  | add (value : T)
  | insert (index : Nat) (value : T)
  | remove (index : Nat)
  | clear
  | resize

/-- Whether the call is the explicit `resize()`. -/
def Op.is_resize {T : Type} : Op T → Bool
  | .resize => true
  | _ => false

/-- The member call an `Op` stands for. -/
def vector.step {T : Type} [Inhabited T] (v : vector T) : Op T → Outcome T Unit
  | .add value => v.add value
  | .insert index value => v.insert index value
  | .remove index => v.remove index
  | .clear => v.clear
  | .resize => v.resize

/-- A sequence of member calls by a client that catches `std::range_error` and goes on
with the container as the throw left it; `none` when a call accesses a buffer out of
range. -/
def run {T : Type} [Inhabited T] (v : vector T) : List (Op T) → Option (vector T)
  | [] => some v
  | op :: rest =>
    match v.step op with
    | .ok v1 _ => run v1 rest
    | .range_error s => run s rest
    | .undefined => none

/-! ## Buffer loops -/

section lemmas
variable {T : Type}

/-- A read inside the buffer returns the slot. -/
theorem buf_read_of_lt {d : List T} {i : Nat} (h : i < d.length) :
    buf_read d i = some d[i] := by
  simp [buf_read, List.getElem?_eq_getElem h]

/-- A read that returns was inside the buffer. -/
theorem buf_read_lt {d : List T} {i : Nat} {x : T} (h : buf_read d i = some x) :
    i < d.length := by
  unfold buf_read at h
  by_contra hc
  rw [List.getElem?_eq_none (by omega)] at h
  cases h

/-- A write inside the buffer replaces the slot. -/
theorem buf_write_of_lt {d : List T} {i : Nat} (x : T) (h : i < d.length) :
    buf_write d i x = some (d.set i x) := by
  simp [buf_write, h]

/-- A write that returns was inside the buffer and replaced the slot. -/
theorem buf_write_some {d d1 : List T} {i : Nat} {x : T} (h : buf_write d i x = some d1) :
    i < d.length ∧ d1 = d.set i x := by
  unfold buf_write at h
  split at h
  · exact ⟨by assumption, by cases h; rfl⟩
  · cases h

/-- The copy loop of `resize` succeeds when both buffers hold the slots `[i, i + n)`;
it overwrites exactly those slots of the new buffer. -/
theorem resize_copy_ok (data : List T) : ∀ (n i : Nat) (nd : List T),
    i + n ≤ data.length → i + n ≤ nd.length →
    ∃ r, resize_copy data n i nd = some r ∧ r.length = nd.length ∧
      ∀ j, r[j]? = if i ≤ j ∧ j < i + n then data[j]? else nd[j]? := by
  intro n
  induction n with
  | zero =>
    intro i nd _ _
    refine ⟨nd, rfl, rfl, fun j => ?_⟩
    rw [if_neg (by omega)]
  | succ n ih =>
    intro i nd h1 h2
    have hi : i < data.length := by omega
    have hi2 : i < nd.length := by omega
    obtain ⟨r, hr, hlen, hget⟩ :=
      ih (i + 1) (nd.set i data[i]) (by omega) (by rw [List.length_set]; omega)
    refine ⟨r, ?_, ?_, fun j => ?_⟩
    · simp only [resize_copy, buf_read_of_lt hi, buf_write_of_lt _ hi2, hr]
    · rw [hlen, List.length_set]
    · rw [hget j, List.getElem?_set]
      by_cases hj : i = j
      · subst hj
        rw [if_neg (by omega), if_pos rfl, if_pos hi2, if_pos (by omega),
          List.getElem?_eq_getElem hi]
      · rw [if_neg hj]
        by_cases hj2 : i + 1 ≤ j ∧ j < i + 1 + n
        · rw [if_pos hj2, if_pos (by omega)]
        · rw [if_neg hj2, if_neg (by omega)]

/-- The copy loop of `resize` returns only when both buffers hold the slots it touches. -/
theorem resize_copy_some (data : List T) : ∀ (n i : Nat) (nd r : List T),
    resize_copy data n i nd = some r → 0 < n → i + n ≤ data.length ∧ i + n ≤ nd.length := by
  intro n
  induction n with
  | zero => intro i nd r _ h; omega
  | succ n ih =>
    intro i nd r h _
    cases hrd : buf_read data i with
    | none => simp [resize_copy, hrd] at h
    | some x =>
      cases hwr : buf_write nd i x with
      | none => simp [resize_copy, hrd, hwr] at h
      | some d1 =>
        simp only [resize_copy, hrd, hwr] at h
        have h1 := buf_read_lt hrd
        obtain ⟨h2, h3⟩ := buf_write_some hwr
        rcases Nat.eq_zero_or_pos n with hn | hn
        · subst hn; omega
        · have := ih (i + 1) d1 r h hn
          rw [h3, List.length_set] at this
          omega

/-- The shift loop of `insert` succeeds when the buffer holds slot `i` (or the loop body
never runs); slot `j` in `(index, i]` receives the old content of slot `j - 1`. -/
theorem insert_shift_ok (index : Nat) : ∀ (i : Nat) (d : List T),
    (index < i → i < d.length) →
    ∃ r, insert_shift index i d = some r ∧ r.length = d.length ∧
      ∀ j, r[j]? = if index < j ∧ j ≤ i then d[j - 1]? else d[j]? := by
  intro i
  induction i with
  | zero =>
    intro d _
    refine ⟨d, rfl, rfl, fun j => ?_⟩
    rw [if_neg (by omega)]
  | succ i ih =>
    intro d h
    by_cases hlt : index < i + 1
    · have h1 : i + 1 < d.length := h hlt
      have h0 : i < d.length := by omega
      obtain ⟨r, hr, hlen, hget⟩ :=
        ih (d.set (i + 1) d[i]) (fun _ => by rw [List.length_set]; omega)
      refine ⟨r, ?_, ?_, fun j => ?_⟩
      · simp only [insert_shift, if_pos (show i + 1 > index from hlt), buf_read_of_lt h0,
          buf_write_of_lt _ h1, hr]
      · rw [hlen, List.length_set]
      · rw [hget j]
        by_cases hj : j = i + 1
        · subst hj
          rw [if_neg (by omega), if_pos (by omega), List.getElem?_set, if_pos rfl, if_pos h1,
            Nat.add_sub_cancel, List.getElem?_eq_getElem h0]
        · by_cases hj2 : index < j ∧ j ≤ i
          · rw [if_pos hj2, if_pos (by omega), List.getElem?_set, if_neg (by omega)]
          · rw [if_neg hj2, if_neg (by omega), List.getElem?_set, if_neg (by omega)]
    · refine ⟨d, ?_, rfl, fun j => ?_⟩
      · simp only [insert_shift, if_neg (show ¬ i + 1 > index from hlt)]
      · rw [if_neg (by omega)]

/-- The shift loop of `insert` returns only when the buffer holds slot `i`, unless its
body never runs. -/
theorem insert_shift_some (index i : Nat) (d r : List T)
    (h : insert_shift index i d = some r) (hlt : index < i) : i < d.length := by
  cases i with
  | zero => omega
  | succ i =>
    cases hrd : buf_read d i with
    | none => simp [insert_shift, hlt, hrd] at h
    | some x =>
      cases hwr : buf_write d (i + 1) x with
      | none => simp [insert_shift, hlt, hrd, hwr] at h
      | some d1 => exact (buf_write_some hwr).1

/-- The shift loop of `remove` succeeds when the buffer holds slot `i + n`; slot `j` in
`[i, i + n)` receives the old content of slot `j + 1`. -/
theorem remove_shift_ok : ∀ (n i : Nat) (d : List T),
    i + n < d.length →
    ∃ r, remove_shift n i d = some r ∧ r.length = d.length ∧
      ∀ j, r[j]? = if i ≤ j ∧ j < i + n then d[j + 1]? else d[j]? := by
  intro n
  induction n with
  | zero =>
    intro i d _
    refine ⟨d, rfl, rfl, fun j => ?_⟩
    rw [if_neg (by omega)]
  | succ n ih =>
    intro i d h
    have h1 : i + 1 < d.length := by omega
    have h0 : i < d.length := by omega
    obtain ⟨r, hr, hlen, hget⟩ :=
      ih (i + 1) (d.set i d[i + 1]) (by rw [List.length_set]; omega)
    refine ⟨r, ?_, ?_, fun j => ?_⟩
    · simp only [remove_shift, buf_read_of_lt h1, buf_write_of_lt _ h0, hr]
    · rw [hlen, List.length_set]
    · rw [hget j]
      by_cases hj : j = i
      · subst hj
        rw [if_neg (by omega), if_pos (by omega), List.getElem?_set, if_pos rfl, if_pos h0,
          List.getElem?_eq_getElem h1]
      · by_cases hj2 : i + 1 ≤ j ∧ j < i + 1 + n
        · rw [if_pos hj2, if_pos (by omega), List.getElem?_set, if_neg (by omega)]
        · rw [if_neg hj2, if_neg (by omega), List.getElem?_set, if_neg (by omega)]

/-! ## Member functions on well-formed containers -/

/-- Sequencing after a normal return runs the next call. -/
@[simp] theorem Outcome.bind_ok {α β : Type} (v : vector T) (a : α)
    (f : vector T → α → Outcome T β) : (Outcome.ok v a).bind f = f v a := rfl

/-- Sequencing after a throw keeps the throw. -/
@[simp] theorem Outcome.bind_range_error {α β : Type} (v : vector T)
    (f : vector T → α → Outcome T β) :
    (Outcome.range_error v : Outcome T α).bind f = .range_error v := rfl

/-- Sequencing after undefined behaviour stays undefined. -/
@[simp] theorem Outcome.bind_undefined {α β : Type} (f : vector T → α → Outcome T β) :
    (Outcome.undefined : Outcome T α).bind f = .undefined := rfl

/-- A call of `resize()` returns when the old buffer holds `sizeVal` slots and the policy
returns at least `sizeVal`; the new buffer has the slots the policy asked for and the
elements `[0, sizeVal)` are copied. -/
theorem resize_ok [Inhabited T] (v : vector T) (h1 : v.sizeVal ≤ v.data.length)
    (h2 : v.sizeVal ≤ v.resize_func_ v.sizeVal) :
    ∃ nd, v.resize = .ok { v with capacityVal := v.resize_func_ v.sizeVal, data := nd } () ∧
      nd.length = v.resize_func_ v.sizeVal ∧
      ∀ j, nd[j]? = if j < v.sizeVal then v.data[j]?
        else (make_shared T (v.resize_func_ v.sizeVal))[j]? := by
  obtain ⟨r, hr, hlen, hget⟩ := resize_copy_ok v.data v.sizeVal 0
    (make_shared T (v.resize_func_ v.sizeVal)) (by omega)
    (by simp only [make_shared, List.length_replicate]; omega)
  refine ⟨r, ?_, ?_, fun j => ?_⟩
  · simp only [vector.resize, hr]
  · rw [hlen]; simp only [make_shared, List.length_replicate]
  · rw [hget j]
    by_cases hj : j < v.sizeVal
    · rw [if_pos hj, if_pos (by omega)]
    · rw [if_neg hj, if_neg (by omega)]

/-- The guarded `resize()` of `add` and `insert` on a well-formed container whose policy
grows: afterwards there is a free slot at index `sizeVal`. -/
theorem resize_if_full_ok [Inhabited T] (v : vector T) (hwf : v.WellFormed)
    (hg : v.GrowsWhenFull) :
    ∃ nd, v.resize_if_full = .ok { v with
        capacityVal := if v.sizeVal = v.capacityVal then v.resize_func_ v.sizeVal
          else v.capacityVal,
        data := nd } () ∧
      nd.length = (if v.sizeVal = v.capacityVal then v.resize_func_ v.sizeVal
        else v.capacityVal) ∧
      v.sizeVal < nd.length ∧
      ∀ j, j < v.sizeVal → nd[j]? = v.data[j]? := by
  obtain ⟨hle, hlen⟩ := hwf
  by_cases hfull : v.sizeVal = v.capacityVal
  · have hlt := hg hfull
    obtain ⟨nd, hr, hl, hget⟩ := resize_ok v (by omega) (by omega)
    refine ⟨nd, ?_, ?_, by omega, fun j hj => ?_⟩
    · simp only [vector.resize_if_full, if_pos hfull, hr]
    · rw [if_pos hfull, hl]
    · rw [hget j, if_pos hj]
  · refine ⟨v.data, ?_, ?_, by omega, fun j _ => rfl⟩
    · simp only [vector.resize_if_full, if_neg hfull]
    · rw [if_neg hfull, hlen]

/-- On a well-formed container the capacity after the guarded `resize()` is a
`size_type` value when the members are. -/
theorem grown_capacity_lt [Inhabited T] (v : vector T) (hr : v.InRange) :
    (if v.sizeVal = v.capacityVal then v.resize_func_ v.sizeVal else v.capacityVal)
      < SIZE_MOD := by
  obtain ⟨hc, hs, hf⟩ := hr
  split
  · exact hf _ hs
  · exact hc

/-- Effect of `add` on a well-formed container whose policy grows. -/
theorem add_ok [Inhabited T] (v : vector T) (value : T) (hwf : v.WellFormed)
    (hr : v.InRange) (hg : v.GrowsWhenFull) :
    ∃ v', v.add value = .ok v' () ∧ v'.sizeVal = v.sizeVal + 1 ∧
      v'.resize_func_ = v.resize_func_ ∧
      v'.capacityVal = (if v.sizeVal = v.capacityVal then v.resize_func_ v.sizeVal
        else v.capacityVal) ∧
      v'.data.length = v'.capacityVal ∧ v.sizeVal < v'.capacityVal ∧
      v'.data[v.sizeVal]? = some value ∧
      ∀ j, j < v.sizeVal → v'.data[j]? = v.data[j]? := by
  obtain ⟨nd, hres, hlen, hlt, hget⟩ := resize_if_full_ok v hwf hg
  have hcap := grown_capacity_lt v hr
  rw [← hlen] at hcap
  have hmod : (v.sizeVal + 1) % SIZE_MOD = v.sizeVal + 1 := Nat.mod_eq_of_lt (by omega)
  refine ⟨{ v with
      capacityVal := if v.sizeVal = v.capacityVal then v.resize_func_ v.sizeVal
        else v.capacityVal,
      data := nd.set v.sizeVal value, sizeVal := v.sizeVal + 1 }, ?_, rfl, rfl, rfl, ?_, ?_, ?_,
    fun j hj => ?_⟩
  · simp only [vector.add, hres, Outcome.bind_ok, buf_write_of_lt _ hlt, hmod]
  · simp only [List.length_set, hlen]
  · simpa only [hlen] using hlt
  · simp only [List.getElem?_set, if_pos hlt, if_true]
  · simp only [List.getElem?_set, if_neg (show ¬ v.sizeVal = j by omega), hget j hj]

/-- Effect of `insert` at an index `≤ sizeVal` on a well-formed container whose policy
grows. -/
theorem insert_ok [Inhabited T] (v : vector T) (index : Nat) (value : T)
    (hwf : v.WellFormed) (hr : v.InRange) (hg : v.GrowsWhenFull) (hidx : index ≤ v.sizeVal) :
    ∃ v', v.insert index value = .ok v' () ∧ v'.sizeVal = v.sizeVal + 1 ∧
      v'.resize_func_ = v.resize_func_ ∧
      v'.capacityVal = (if v.sizeVal = v.capacityVal then v.resize_func_ v.sizeVal
        else v.capacityVal) ∧
      v'.data.length = v'.capacityVal ∧ v.sizeVal < v'.capacityVal ∧
      ∀ j, j < v.sizeVal + 1 → v'.data[j]? =
        if j < index then v.data[j]? else if j = index then some value else v.data[j - 1]? := by
  obtain ⟨nd, hres, hlen, hlt, hget⟩ := resize_if_full_ok v hwf hg
  have hcap := grown_capacity_lt v hr
  rw [← hlen] at hcap
  have hmod : (v.sizeVal + 1) % SIZE_MOD = v.sizeVal + 1 := Nat.mod_eq_of_lt (by omega)
  obtain ⟨r, hsh, hrlen, hrget⟩ := insert_shift_ok index v.sizeVal nd (fun _ => hlt)
  have hil : index < r.length := by omega
  refine ⟨{ v with
      capacityVal := if v.sizeVal = v.capacityVal then v.resize_func_ v.sizeVal
        else v.capacityVal,
      data := r.set index value, sizeVal := v.sizeVal + 1 }, ?_, rfl, rfl, rfl, ?_, ?_,
    fun j hj => ?_⟩
  · simp only [vector.insert, if_neg (show ¬ index > v.sizeVal by omega), hres,
      Outcome.bind_ok, hsh, buf_write_of_lt _ hil, hmod]
  · simp only [List.length_set, hrlen, hlen]
  · simpa only [hlen] using hlt
  · simp only [List.getElem?_set]
    by_cases h1 : j < index
    · rw [if_neg (by omega), if_pos h1, hrget j, if_neg (by omega), hget j (by omega)]
    · by_cases h2 : j = index
      · subst h2
        rw [if_pos rfl, if_pos hil, if_neg h1, if_pos rfl]
      · rw [if_neg (fun h => h2 h.symm), if_neg h1, if_neg h2, hrget j, if_pos (by omega),
          hget (j - 1) (by omega)]

/-- Effect of `remove` at an index `< sizeVal` on a container whose buffer holds the
`sizeVal` logical elements. -/
theorem remove_ok (v : vector T) (index : Nat) (hlen : v.sizeVal ≤ v.data.length)
    (hidx : index < v.sizeVal) :
    ∃ d, v.remove index = .ok { v with data := d, sizeVal := v.sizeVal - 1 } () ∧
      d.length = v.data.length ∧
      ∀ j, d[j]? = if index ≤ j ∧ j < v.sizeVal - 1 then v.data[j + 1]? else v.data[j]? := by
  obtain ⟨r, hsh, hrlen, hrget⟩ :=
    remove_shift_ok (v.sizeVal - 1 - index) index v.data (by omega)
  refine ⟨r, ?_, hrlen, fun j => ?_⟩
  · simp only [vector.remove, if_neg (show ¬ index ≥ v.sizeVal by omega), hsh]
  · rw [hrget j]
    by_cases h : index ≤ j ∧ j < v.sizeVal - 1
    · rw [if_pos h, if_pos (by omega)]
    · rw [if_neg h, if_neg (by omega)]

/-! ## Logical contents -/

/-- Lookup in a list with `x` spliced in at position `i`. -/
theorem getElem?_splice (l : List T) (i : Nat) (x : T) (hi : i ≤ l.length) (j : Nat) :
    (l.take i ++ [x] ++ l.drop i)[j]? =
      if j < i then l[j]? else if j = i then some x else l[j - 1]? := by
  have hlen : (l.take i).length = i := by rw [List.length_take]; omega
  by_cases h1 : j < i
  · rw [if_pos h1, List.append_assoc, List.getElem?_append_left (by omega),
      List.getElem?_take_of_lt h1]
  · rw [if_neg h1, List.append_assoc, List.getElem?_append_right (by omega), hlen]
    by_cases h2 : j = i
    · subst h2
      simp
    · rw [if_neg h2]
      obtain ⟨k, hk⟩ : ∃ k, j = i + (k + 1) := ⟨j - i - 1, by omega⟩
      subst hk
      have e1 : i + (k + 1) - i = k + 1 := by omega
      have e2 : i + (k + 1) - 1 = i + k := by omega
      rw [e1, e2, List.singleton_append, List.getElem?_cons_succ, List.getElem?_drop]

/-- Lookup in the logical contents. -/
theorem elems_getElem? (v : vector T) (j : Nat) :
    v.elems[j]? = if j < v.sizeVal then v.data[j]? else none := by
  simp only [vector.elems, List.getElem?_take]

/-- The logical contents have `sizeVal` elements when the buffer holds them. -/
theorem elems_length (v : vector T) (h : v.sizeVal ≤ v.data.length) :
    v.elems.length = v.sizeVal := by
  simp only [vector.elems, List.length_take]; omega

/-- Logical contents after a call that wrote `value` at the old index `sizeVal` and kept
the slots below it. -/
theorem elems_of_append (v v' : vector T) (value : T) (hdl : v.sizeVal ≤ v.data.length)
    (hsz : v'.sizeVal = v.sizeVal + 1) (hat : v'.data[v.sizeVal]? = some value)
    (hget : ∀ j, j < v.sizeVal → v'.data[j]? = v.data[j]?) :
    v'.elems = v.elems ++ [value] := by
  apply List.ext_getElem?
  intro j
  rw [List.getElem?_append, elems_length v hdl, elems_getElem?, elems_getElem?, hsz]
  by_cases h1 : j < v.sizeVal
  · rw [if_pos h1, if_pos h1, if_pos (by omega), hget j h1]
  · rw [if_neg h1]
    by_cases h2 : j = v.sizeVal
    · subst h2
      rw [if_pos (by omega), hat, Nat.sub_self]
      rfl
    · rw [if_neg (by omega), List.getElem?_eq_none]
      simp only [List.length_singleton]
      omega

/-- The default policy returns a `size_type` value. -/
theorem default_policy_lt (n : Nat) : default_policy n < SIZE_MOD :=
  Nat.mod_lt _ (by decide)

/-! ## `insert`, `remove`, `add` -/

/-- C1: on a well-formed container whose policy returns more than `size` when full,
`insert(index, value)` with `index ≤ size` returns normally, `size` grows by exactly 1,
`container[index]` then reads `value`, the elements below `index` stay in place, the
elements at `[index, size)` move one slot up, and the logical sequence becomes
`take index ++ [value] ++ drop index`. -/
theorem C1_insert_spec [Inhabited T] (v : vector T) (index : Nat) (value : T)
    (hwf : v.WellFormed) (hr : v.InRange) (hg : v.GrowsWhenFull) (hidx : index ≤ v.sizeVal) :
    ∃ v', v.insert index value = .ok v' () ∧
      v'.sizeVal = v.sizeVal + 1 ∧
      v'.read_at index = .ok v' value ∧
      (∀ j, j < index → v'.data[j]? = v.data[j]?) ∧
      (∀ j, index ≤ j → j < v.sizeVal → v'.data[j + 1]? = v.data[j]?) ∧
      v'.elems = v.elems.take index ++ [value] ++ v.elems.drop index := by
  obtain ⟨v', hins, hsz, _, _, hlen, hlt, hget⟩ := insert_ok v index value hwf hr hg hidx
  have hdl : v.sizeVal ≤ v.data.length := by rw [hwf.2]; exact hwf.1
  have hat : v'.data[index]? = some value := by
    rw [hget index (by omega), if_neg (by omega), if_pos rfl]
  refine ⟨v', hins, hsz, ?_, fun j hj => ?_, fun j h1 h2 => ?_, ?_⟩
  · simp only [vector.read_at, vector.operator_subscript,
      if_neg (show ¬ index ≥ v'.sizeVal by omega), if_pos (show index < v'.data.length by omega),
      Outcome.bind_ok, vector.load, buf_read, hat]
  · rw [hget j (by omega), if_pos hj]
  · rw [hget (j + 1) (by omega), if_neg (by omega), if_neg (by omega), Nat.add_sub_cancel]
  · apply List.ext_getElem?
    intro j
    rw [getElem?_splice _ _ _ (by rw [elems_length v hdl]; exact hidx), elems_getElem?,
      elems_getElem?, elems_getElem?, hsz]
    by_cases h1 : j < v.sizeVal + 1
    · rw [if_pos h1, hget j h1]
      by_cases h2 : j < index
      · rw [if_pos h2, if_pos h2, if_pos (by omega)]
      · rw [if_neg h2, if_neg h2]
        by_cases h3 : j = index
        · rw [if_pos h3, if_pos h3]
        · rw [if_neg h3, if_neg h3, if_pos (by omega)]
    · rw [if_neg h1, if_neg (by omega), if_neg (by omega), if_neg (by omega)]

/-- C1 at the full container `[1, 2, 3]` (capacity 3, default policy): `insert(1, 99)`
grows the buffer and gives `[1, 99, 2, 3]`. -/
theorem C1_insert_spec_witness :
    sample_full.WellFormed ∧ sample_full.GrowsWhenFull ∧
      ∃ v', sample_full.insert 1 99 = .ok v' () ∧ v'.sizeVal = 4 ∧
        v'.read_at 1 = .ok v' 99 ∧ v'.elems = [1, 99, 2, 3] := by
  have hwf : sample_full.WellFormed := by decide
  have hg : sample_full.GrowsWhenFull := by decide
  obtain ⟨v', h1, h2, h3, _, _, h6⟩ := C1_insert_spec sample_full 1 99 hwf
    ⟨by decide, by decide, fun n _ => default_policy_lt n⟩ hg (by decide)
  exact ⟨hwf, hg, v', h1, h2, h3, h6⟩

/-- C2: on a well-formed container `remove(index)` with `index < size` returns normally,
`size` drops by exactly 1, `capacity` is unchanged, the elements below `index` stay in
place, the elements at `(index, size)` move one slot down, and the logical sequence is the
original with the element at `index` erased. -/
theorem C2_remove_spec (v : vector T) (index : Nat)
    (hwf : v.WellFormed) (hidx : index < v.sizeVal) :
    ∃ v', v.remove index = .ok v' () ∧
      v'.sizeVal + 1 = v.sizeVal ∧
      v'.capacityVal = v.capacityVal ∧
      (∀ j, j < index → v'.data[j]? = v.data[j]?) ∧
      (∀ j, index < j → j < v.sizeVal → v'.data[j - 1]? = v.data[j]?) ∧
      v'.elems = v.elems.eraseIdx index := by
  have hdl : v.sizeVal ≤ v.data.length := by rw [hwf.2]; exact hwf.1
  obtain ⟨d, hrem, _, hget⟩ := remove_ok v index hdl hidx
  refine ⟨_, hrem, by show v.sizeVal - 1 + 1 = v.sizeVal; omega, rfl, fun j hj => ?_,
    fun j h1 h2 => ?_, ?_⟩
  · show d[j]? = v.data[j]?
    rw [hget j, if_neg (by omega)]
  · show d[j - 1]? = v.data[j]?
    rw [hget (j - 1), if_pos (by omega)]
    congr 1
    omega
  · apply List.ext_getElem?
    intro j
    rw [List.getElem?_eraseIdx, elems_getElem?, elems_getElem?, elems_getElem?]
    show (if j < v.sizeVal - 1 then d[j]? else none) = _
    rw [hget j]
    by_cases h1 : j < v.sizeVal - 1
    · rw [if_pos h1]
      by_cases h2 : j < index
      · rw [if_pos h2, if_neg (by omega), if_pos (by omega)]
      · rw [if_neg h2, if_pos (by omega), if_pos (by omega)]
    · rw [if_neg h1]
      by_cases h2 : j < index
      · omega
      · rw [if_neg h2, if_neg (by omega)]

/-- C2 at the container `[1, 2, 3]` with capacity 5: `remove(0)` gives `[2, 3]`. -/
theorem C2_remove_spec_witness :
    sample_spare.WellFormed ∧
      ∃ v', sample_spare.remove 0 = .ok v' () ∧ v'.sizeVal + 1 = 3 ∧ v'.capacityVal = 5 ∧
        v'.elems = [2, 3] := by
  have hwf : sample_spare.WellFormed := by decide
  obtain ⟨v', h1, h2, h3, _, _, h6⟩ := C2_remove_spec sample_spare 0 hwf (by decide)
  exact ⟨hwf, v', h1, h2, h3, h6⟩

/-- C3: on a well-formed container whose policy returns more than `size` when full,
`add(value)` returns normally, writes `value` at the old index `size`, increases `size` by
exactly 1 and leaves every element below the old `size` unchanged, whether or not growth
was triggered; the logical sequence becomes `old ++ [value]`. -/
theorem C3_add_spec [Inhabited T] (v : vector T) (value : T)
    (hwf : v.WellFormed) (hr : v.InRange) (hg : v.GrowsWhenFull) :
    ∃ v', v.add value = .ok v' () ∧
      v'.data[v.sizeVal]? = some value ∧
      v'.read_at v.sizeVal = .ok v' value ∧
      v'.sizeVal = v.sizeVal + 1 ∧
      (∀ j, j < v.sizeVal → v'.data[j]? = v.data[j]?) ∧
      v'.elems = v.elems ++ [value] := by
  obtain ⟨v', hadd, hsz, _, _, hlen, hlt, hat, hget⟩ := add_ok v value hwf hr hg
  have hdl : v.sizeVal ≤ v.data.length := by rw [hwf.2]; exact hwf.1
  refine ⟨v', hadd, hat, ?_, hsz, hget, elems_of_append v v' value hdl hsz hat hget⟩
  simp only [vector.read_at, vector.operator_subscript,
    if_neg (show ¬ v.sizeVal ≥ v'.sizeVal by omega),
    if_pos (show v.sizeVal < v'.data.length by omega),
    Outcome.bind_ok, vector.load, buf_read, hat]

/-- C3 at the full container `[1, 2, 3]` (capacity 3, default policy): `add(7)` grows the
buffer and gives `[1, 2, 3, 7]`. -/
theorem C3_add_spec_witness :
    sample_full.WellFormed ∧ sample_full.GrowsWhenFull ∧
      ∃ v', sample_full.add 7 = .ok v' () ∧ v'.data[3]? = some 7 ∧ v'.sizeVal = 4 ∧
        v'.elems = [1, 2, 3, 7] := by
  have hwf : sample_full.WellFormed := by decide
  have hg : sample_full.GrowsWhenFull := by decide
  obtain ⟨v', h1, h2, _, h4, _, h6⟩ := C3_add_spec sample_full 7 hwf
    ⟨by decide, by decide, fun n _ => default_policy_lt n⟩ hg
  exact ⟨hwf, hg, v', h1, h2, h4, h6⟩

/-! ## When `add` and `insert` return, and what they ask of the policy -/

/-- The copy loop of `resize` keeps the length of the new buffer. -/
theorem resize_copy_length (data : List T) : ∀ (n i : Nat) (nd r : List T),
    resize_copy data n i nd = some r → r.length = nd.length := by
  intro n
  induction n with
  | zero =>
    intro i nd r h
    simp only [resize_copy, Option.some.injEq] at h
    rw [h]
  | succ n ih =>
    intro i nd r h
    cases hrd : buf_read data i with
    | none => simp [resize_copy, hrd] at h
    | some x =>
      cases hwr : buf_write nd i x with
      | none => simp [resize_copy, hrd, hwr] at h
      | some d1 =>
        simp only [resize_copy, hrd, hwr] at h
        rw [ih (i + 1) d1 r h, (buf_write_some hwr).2, List.length_set]

/-- What a normal return of `resize()` tells: the copy loop ran through and the state is
the old one with the new capacity and buffer. -/
theorem resize_returns [Inhabited T] (v v1 : vector T) (h : v.resize = .ok v1 ()) :
    ∃ nd, resize_copy v.data v.sizeVal 0 (make_shared T (v.resize_func_ v.sizeVal)) = some nd ∧
      v1 = { v with capacityVal := v.resize_func_ v.sizeVal, data := nd } := by
  cases hc : resize_copy v.data v.sizeVal 0 (make_shared T (v.resize_func_ v.sizeVal)) with
  | none => simp [vector.resize, hc] at h
  | some nd =>
    simp only [vector.resize, hc, Outcome.ok.injEq, and_true] at h
    exact ⟨nd, rfl, h.symm⟩

/-- The guarded `resize()` never throws. -/
theorem resize_if_full_ne_range_error [Inhabited T] (v s : vector T) :
    v.resize_if_full ≠ .range_error s := by
  intro h
  by_cases hfull : v.sizeVal = v.capacityVal
  · simp only [vector.resize_if_full, if_pos hfull, vector.resize] at h
    cases hc : resize_copy v.data v.sizeVal 0 (make_shared T (v.resize_func_ v.sizeVal)) with
    | none => simp only [hc] at h; cases h
    | some nd => simp only [hc] at h; cases h
  · simp only [vector.resize_if_full, if_neg hfull] at h
    cases h

/-- What a normal return of the guarded `resize()` tells. -/
theorem resize_if_full_returns [Inhabited T] (v v1 : vector T)
    (h : v.resize_if_full = .ok v1 ()) :
    v1.sizeVal = v.sizeVal ∧ v1.resize_func_ = v.resize_func_ ∧
      v1.capacityVal = (if v.sizeVal = v.capacityVal then v.resize_func_ v.sizeVal
        else v.capacityVal) ∧
      (v.sizeVal < v1.data.length → v.has_room) := by
  by_cases hfull : v.sizeVal = v.capacityVal
  · simp only [vector.resize_if_full, if_pos hfull] at h
    obtain ⟨nd, hc, rfl⟩ := resize_returns v v1 h
    refine ⟨rfl, rfl, by rw [if_pos hfull], fun hlt => ?_⟩
    have hl := resize_copy_length _ _ _ _ _ hc
    simp only [make_shared, List.length_replicate] at hl
    simp only [vector.has_room, if_pos hfull]
    have hlt2 : v.sizeVal < v.resize_func_ v.sizeVal := by rw [← hl]; exact hlt
    refine ⟨?_, hlt2⟩
    rcases Nat.eq_zero_or_pos v.sizeVal with h0 | hpos
    · omega
    · have := (resize_copy_some _ _ _ _ _ hc hpos).1
      omega
  · simp only [vector.resize_if_full, if_neg hfull, Outcome.ok.injEq, and_true] at h
    subst h
    refine ⟨rfl, rfl, by rw [if_neg hfull], fun hlt => ?_⟩
    simp only [vector.has_room, if_neg hfull]
    exact hlt

/-- The guarded `resize()` returns when the container has room. -/
theorem resize_if_full_of_has_room [Inhabited T] (v : vector T) (h : v.has_room) :
    ∃ v1, v.resize_if_full = .ok v1 () ∧ v1.sizeVal = v.sizeVal ∧
      v.sizeVal < v1.data.length := by
  by_cases hfull : v.sizeVal = v.capacityVal
  · simp only [vector.has_room, if_pos hfull] at h
    obtain ⟨nd, hr, hl, _⟩ := resize_ok v h.1 (by omega)
    refine ⟨{ v with capacityVal := v.resize_func_ v.sizeVal, data := nd }, ?_, rfl, ?_⟩
    · simp only [vector.resize_if_full, if_pos hfull, hr]
    · show v.sizeVal < nd.length
      omega
  · simp only [vector.has_room, if_neg hfull] at h
    exact ⟨v, by simp only [vector.resize_if_full, if_neg hfull], rfl, h⟩

/-- The shift loop of `insert` keeps the length of the buffer. -/
theorem insert_shift_length (index : Nat) : ∀ (i : Nat) (d r : List T),
    insert_shift index i d = some r → r.length = d.length := by
  intro i
  induction i with
  | zero =>
    intro d r h
    simp only [insert_shift, Option.some.injEq] at h
    rw [h]
  | succ i ih =>
    intro d r h
    by_cases hlt : i + 1 > index
    · cases hrd : buf_read d i with
      | none => simp [insert_shift, hlt, hrd] at h
      | some x =>
        cases hwr : buf_write d (i + 1) x with
        | none => simp [insert_shift, hlt, hrd, hwr] at h
        | some d1 =>
          simp only [insert_shift, if_pos hlt, hrd, hwr] at h
          rw [ih d1 r h, (buf_write_some hwr).2, List.length_set]
    · simp only [insert_shift, if_neg hlt, Option.some.injEq] at h
      rw [h]

/-- What a normal return of `add` tells. -/
theorem add_returns [Inhabited T] (v v' : vector T) (x : T) (h : v.add x = .ok v' ()) :
    ∃ v1, v.resize_if_full = .ok v1 () ∧ v1.sizeVal < v1.data.length ∧
      v' = { v1 with data := v1.data.set v1.sizeVal x,
                     sizeVal := (v1.sizeVal + 1) % SIZE_MOD } := by
  cases hres : v.resize_if_full with
  | range_error s => exact absurd hres (resize_if_full_ne_range_error v s)
  | undefined => simp [vector.add, hres] at h
  | ok v1 a =>
    cases hw : buf_write v1.data v1.sizeVal x with
    | none => simp [vector.add, hres, hw] at h
    | some d =>
      simp only [vector.add, hres, Outcome.bind_ok, hw, Outcome.ok.injEq, and_true] at h
      obtain ⟨hlt, hd⟩ := buf_write_some hw
      exact ⟨v1, rfl, hlt, by rw [← h, hd]⟩

/-- What a normal return of `insert` tells. -/
theorem insert_returns [Inhabited T] (v v' : vector T) (index : Nat) (x : T)
    (h : v.insert index x = .ok v' ()) :
    index ≤ v.sizeVal ∧ ∃ v1, v.resize_if_full = .ok v1 () ∧ v1.sizeVal < v1.data.length ∧
      v'.capacityVal = v1.capacityVal ∧ v'.resize_func_ = v1.resize_func_ ∧
      v'.sizeVal = (v1.sizeVal + 1) % SIZE_MOD := by
  by_cases hgt : index > v.sizeVal
  · simp [vector.insert, hgt] at h
  · refine ⟨by omega, ?_⟩
    cases hres : v.resize_if_full with
    | range_error s => exact absurd hres (resize_if_full_ne_range_error v s)
    | undefined => simp [vector.insert, hgt, hres] at h
    | ok v1 a =>
      cases hsh : insert_shift index v1.sizeVal v1.data with
      | none => simp [vector.insert, hgt, hres, hsh] at h
      | some d =>
        cases hw : buf_write d index x with
        | none => simp [vector.insert, hgt, hres, hsh, hw] at h
        | some d1 =>
          simp only [vector.insert, if_neg hgt, hres, Outcome.bind_ok, hsh, hw,
            Outcome.ok.injEq, and_true] at h
          have hs1 := (resize_if_full_returns v v1 hres).1
          have hl := insert_shift_length _ _ _ _ hsh
          have hlt : v1.sizeVal < v1.data.length := by
            by_cases hi : index < v1.sizeVal
            · exact insert_shift_some _ _ _ _ hsh hi
            · have := (buf_write_some hw).1
              omega
          exact ⟨v1, rfl, hlt, by rw [← h], by rw [← h], by rw [← h]⟩

/-- The guarded `resize()` consults the policy only when the container is full, and then
only at `sizeVal`. -/
theorem resize_if_full_policy [Inhabited T] (v : vector T) (g : Nat → Nat)
    (hg : v.sizeVal = v.capacityVal → g v.sizeVal = v.resize_func_ v.sizeVal) :
    ({ v with resize_func_ := g } : vector T).resize_if_full
      = v.resize_if_full.with_policy g := by
  by_cases hfull : v.sizeVal = v.capacityVal
  · simp only [vector.resize_if_full, if_pos hfull, vector.resize, hg hfull]
    cases resize_copy v.data v.sizeVal 0 (make_shared T (v.resize_func_ v.sizeVal)) <;> rfl
  · simp only [vector.resize_if_full, if_neg hfull]
    rfl

/-- The result of `add` depends on the policy only through its value at `sizeVal`, and
not at all unless the container is full. -/
theorem add_policy [Inhabited T] (v : vector T) (g : Nat → Nat) (x : T)
    (hg : v.sizeVal = v.capacityVal → g v.sizeVal = v.resize_func_ v.sizeVal) :
    ({ v with resize_func_ := g } : vector T).add x = (v.add x).with_policy g := by
  simp only [vector.add, resize_if_full_policy v g hg]
  cases v.resize_if_full with
  | range_error s => rfl
  | undefined => rfl
  | ok v1 a =>
    simp only [Outcome.with_policy, Outcome.bind_ok]
    cases buf_write v1.data v1.sizeVal x <;> rfl

/-- The result of `insert` depends on the policy only through its value at `sizeVal`, and
not at all unless the container is full. -/
theorem insert_policy [Inhabited T] (v : vector T) (g : Nat → Nat) (index : Nat) (x : T)
    (hg : v.sizeVal = v.capacityVal → g v.sizeVal = v.resize_func_ v.sizeVal) :
    ({ v with resize_func_ := g } : vector T).insert index x
      = (v.insert index x).with_policy g := by
  by_cases hgt : index > v.sizeVal
  · simp only [vector.insert, if_pos hgt]
    rfl
  · simp only [vector.insert, if_neg hgt, resize_if_full_policy v g hg]
    cases v.resize_if_full with
    | range_error s => rfl
    | undefined => rfl
    | ok v1 a =>
      simp only [Outcome.with_policy, Outcome.bind_ok]
      cases insert_shift index v1.sizeVal v1.data with
      | none => rfl
      | some d =>
        dsimp only
        cases buf_write d index x <;> rfl

/-- A call of `add` returns exactly when the container has room after the guarded
`resize()`. -/
theorem add_returns_iff [Inhabited T] (v : vector T) (x : T) :
    (∃ v', v.add x = .ok v' ()) ↔ v.has_room := by
  constructor
  · rintro ⟨v', h⟩
    obtain ⟨v1, hres, hlt, _⟩ := add_returns v v' x h
    obtain ⟨hsz, _, _, hroom⟩ := resize_if_full_returns v v1 hres
    exact hroom (by omega)
  · intro h
    obtain ⟨v1, hres, hsz, hlt⟩ := resize_if_full_of_has_room v h
    have hlt1 : v1.sizeVal < v1.data.length := by omega
    refine ⟨{ v1 with data := v1.data.set v1.sizeVal x,
                      sizeVal := (v1.sizeVal + 1) % SIZE_MOD }, ?_⟩
    simp only [vector.add, hres, Outcome.bind_ok, buf_write_of_lt _ hlt1]

/-- A call of `insert` returns exactly when the index is at most `sizeVal` and the
container has room after the guarded `resize()`. -/
theorem insert_returns_iff [Inhabited T] (v : vector T) (index : Nat) (x : T) :
    (∃ v', v.insert index x = .ok v' ()) ↔ index ≤ v.sizeVal ∧ v.has_room := by
  constructor
  · rintro ⟨v', h⟩
    obtain ⟨hidx, v1, hres, hlt, _⟩ := insert_returns v v' index x h
    obtain ⟨hsz, _, _, hroom⟩ := resize_if_full_returns v v1 hres
    exact ⟨hidx, hroom (by omega)⟩
  · rintro ⟨hidx, h⟩
    obtain ⟨v1, hres, hsz, hlt⟩ := resize_if_full_of_has_room v h
    have hlt1 : v1.sizeVal < v1.data.length := by omega
    obtain ⟨r, hsh, hrlen, _⟩ := insert_shift_ok index v1.sizeVal v1.data (fun _ => hlt1)
    have hil : index < r.length := by omega
    refine ⟨{ v1 with data := r.set index x, sizeVal := (v1.sizeVal + 1) % SIZE_MOD }, ?_⟩
    simp only [vector.insert, if_neg (show ¬ index > v.sizeVal by omega), hres,
      Outcome.bind_ok, hsh, buf_write_of_lt _ hil]

/-- A default policy result above the argument is exactly twice the argument. -/
theorem default_policy_double (s : Nat) (h : s < default_policy s) :
    default_policy s = 2 * s := by
  unfold default_policy SIZE_MOD at *
  omega

/-- C4 (as amended): for every container and growth policy, `add(x)` returns normally
exactly when the container has room after the guarded `resize()`, and `insert(index, x)`
exactly when moreover `index ≤ size` (every well-formed container whose policy returns
more than `size` when full has room); after every such normal return, if
`size == capacity` held before the call the capacity is the policy applied once to the old
size (twice the old capacity under the default policy), otherwise the capacity is
unchanged; and the outcome depends on the policy only through its value at the old size of
a full container, so on a container that is not full the policy is not invoked. -/
theorem C4_capacity_after_add_insert [Inhabited T] (v : vector T) (x : T) (index : Nat) :
    ((∃ v', v.add x = .ok v' ()) ↔ v.has_room) ∧
    ((∃ v', v.insert index x = .ok v' ()) ↔ index ≤ v.sizeVal ∧ v.has_room) ∧
    (v.WellFormed → v.GrowsWhenFull → v.has_room) ∧
    (∀ v', v.add x = .ok v' () ∨ v.insert index x = .ok v' () →
      (v.sizeVal = v.capacityVal →
        v'.capacityVal = v.resize_func_ v.sizeVal ∧
        (v.resize_func_ = default_policy → v'.capacityVal = 2 * v.capacityVal)) ∧
      (v.sizeVal ≠ v.capacityVal → v'.capacityVal = v.capacityVal)) ∧
    (∀ g : Nat → Nat, (v.sizeVal = v.capacityVal → g v.sizeVal = v.resize_func_ v.sizeVal) →
      ({ v with resize_func_ := g } : vector T).add x = (v.add x).with_policy g ∧
      ({ v with resize_func_ := g } : vector T).insert index x
        = (v.insert index x).with_policy g) := by
  refine ⟨add_returns_iff v x, insert_returns_iff v index x, fun hwf hg => ?_, fun v' h => ?_,
    fun g hg => ⟨add_policy v g x hg, insert_policy v g index x hg⟩⟩
  · obtain ⟨hle, hlen⟩ := hwf
    unfold vector.has_room
    split
    · next hfull => exact ⟨by omega, hg hfull⟩
    · omega
  have key : ∃ v1, v.resize_if_full = .ok v1 () ∧ v1.sizeVal < v1.data.length ∧
      v'.capacityVal = v1.capacityVal := by
    rcases h with h | h
    · obtain ⟨v1, hres, hlt, hv'⟩ := add_returns v v' x h
      exact ⟨v1, hres, hlt, by rw [hv']⟩
    · obtain ⟨_, v1, hres, hlt, hcap, _⟩ := insert_returns v v' index x h
      exact ⟨v1, hres, hlt, hcap⟩
  obtain ⟨v1, hres, hlt, hcap⟩ := key
  obtain ⟨hsz, _, hc1, hroom⟩ := resize_if_full_returns v v1 hres
  have hr : v.has_room := hroom (by omega)
  constructor
  · intro hfull
    rw [hcap, hc1, if_pos hfull]
    refine ⟨rfl, fun hdef => ?_⟩
    simp only [vector.has_room, if_pos hfull] at hr
    rw [hdef] at hr ⊢
    rw [default_policy_double _ hr.2, hfull]
  · intro hne
    rw [hcap, hc1, if_neg hne]

/-- C4 as stated fails: the container built by `vector(resize)` with a policy that always
returns 0 is full after ten `add` calls, and the eleventh `add` copies into a buffer of 0
slots: it never returns, so no capacity is left to equal the policy result. -/
theorem C4_counterexample :
    add_all (vector.ctor_resize fun _ => 0) (List.range 10) = .ok sample_zero_policy () ∧
      sample_zero_policy.sizeVal = sample_zero_policy.capacityVal ∧
      sample_zero_policy.add 10 = .undefined ∧
      ¬ ∃ v', sample_zero_policy.add 10 = .ok v' () ∧
        v'.capacityVal = sample_zero_policy.resize_func_ sample_zero_policy.sizeVal := by
  refine ⟨rfl, rfl, rfl, ?_⟩
  rintro ⟨v', h, _⟩
  have h2 : sample_zero_policy.add 10 = .undefined := rfl
  rw [h2] at h
  cases h

/-! ## The out-of-bounds error -/

/-- `operator[]` throws exactly for `index ≥ sizeVal`, with the state untouched. -/
theorem operator_subscript_range_error (v s : vector T) (index : Nat) :
    v.operator_subscript index = .range_error s ↔ index ≥ v.sizeVal ∧ s = v := by
  by_cases h : index ≥ v.sizeVal
  · simp only [vector.operator_subscript, if_pos h]
    exact ⟨fun hs => by cases hs; exact ⟨h, rfl⟩, fun ⟨_, hs⟩ => by rw [hs]⟩
  · refine ⟨fun hs => ?_, fun ⟨hge, _⟩ => absurd hge h⟩
    simp only [vector.operator_subscript, if_neg h] at hs
    by_cases h2 : index < v.data.length
    · simp only [if_pos h2] at hs
      cases hs
    · simp only [if_neg h2] at hs
      cases hs

/-- Reading `container[index]` throws exactly for `index ≥ sizeVal`, with the state
untouched. -/
theorem read_at_range_error (v s : vector T) (index : Nat) :
    v.read_at index = .range_error s ↔ index ≥ v.sizeVal ∧ s = v := by
  by_cases h : index ≥ v.sizeVal
  · simp only [vector.read_at, vector.operator_subscript, if_pos h, Outcome.bind_range_error]
    exact ⟨fun hs => by cases hs; exact ⟨h, rfl⟩, fun ⟨_, hs⟩ => by rw [hs]⟩
  · refine ⟨fun hs => ?_, fun ⟨hge, _⟩ => absurd hge h⟩
    simp only [vector.read_at, vector.operator_subscript, if_neg h] at hs
    by_cases h2 : index < v.data.length
    · simp only [if_pos h2, Outcome.bind_ok] at hs
      cases hl : v.load index with
      | none => simp only [hl] at hs; cases hs
      | some y => simp only [hl] at hs; cases hs
    · simp only [if_neg h2, Outcome.bind_undefined] at hs
      cases hs

/-- Writing `container[index] = x` throws exactly for `index ≥ sizeVal`, with the state
untouched. -/
theorem write_at_range_error (v s : vector T) (index : Nat) (x : T) :
    v.write_at index x = .range_error s ↔ index ≥ v.sizeVal ∧ s = v := by
  by_cases h : index ≥ v.sizeVal
  · simp only [vector.write_at, vector.operator_subscript, if_pos h, Outcome.bind_range_error]
    exact ⟨fun hs => by cases hs; exact ⟨h, rfl⟩, fun ⟨_, hs⟩ => by rw [hs]⟩
  · refine ⟨fun hs => ?_, fun ⟨hge, _⟩ => absurd hge h⟩
    simp only [vector.write_at, vector.operator_subscript, if_neg h] at hs
    by_cases h2 : index < v.data.length
    · simp only [if_pos h2, Outcome.bind_ok] at hs
      cases hl : v.store index x with
      | none => simp only [hl] at hs; cases hs
      | some y => simp only [hl] at hs; cases hs
    · simp only [if_neg h2, Outcome.bind_undefined] at hs
      cases hs

/-- `insert` throws exactly for `index > sizeVal`, with the state untouched. -/
theorem insert_range_error [Inhabited T] (v s : vector T) (index : Nat) (x : T) :
    v.insert index x = .range_error s ↔ index > v.sizeVal ∧ s = v := by
  by_cases h : index > v.sizeVal
  · simp only [vector.insert, if_pos h]
    exact ⟨fun hs => by cases hs; exact ⟨h, rfl⟩, fun ⟨_, hs⟩ => by rw [hs]⟩
  · refine ⟨fun hs => ?_, fun ⟨hge, _⟩ => absurd hge h⟩
    simp only [vector.insert, if_neg h] at hs
    cases hres : v.resize_if_full with
    | range_error s1 => exact absurd hres (resize_if_full_ne_range_error v s1)
    | undefined => rw [hres] at hs; cases hs
    | ok v1 a =>
      rw [hres, Outcome.bind_ok] at hs
      cases hsh : insert_shift index v1.sizeVal v1.data with
      | none => simp only [hsh] at hs; cases hs
      | some d =>
        cases hw : buf_write d index x with
        | none => simp only [hsh, hw] at hs; cases hs
        | some d1 => simp only [hsh, hw] at hs; cases hs

/-- `remove` throws exactly for `index ≥ sizeVal`, with the state untouched. -/
theorem remove_range_error (v s : vector T) (index : Nat) :
    v.remove index = .range_error s ↔ index ≥ v.sizeVal ∧ s = v := by
  by_cases h : index ≥ v.sizeVal
  · simp only [vector.remove, if_pos h]
    exact ⟨fun hs => by cases hs; exact ⟨h, rfl⟩, fun ⟨_, hs⟩ => by rw [hs]⟩
  · refine ⟨fun hs => ?_, fun ⟨hge, _⟩ => absurd hge h⟩
    simp only [vector.remove, if_neg h] at hs
    cases hsh : remove_shift (v.sizeVal - 1 - index) index v.data with
    | none => simp only [hsh] at hs; cases hs
    | some d => simp only [hsh] at hs; cases hs

/-- C5: the out-of-bounds error is raised exactly when `operator[]` (used bare, for a
read or for a write) gets `index ≥ size`, `insert` gets `index > size`, `remove` gets
`index ≥ size`; so `remove` on an empty container raises it for every index and `insert`
at `index == size` does not. -/
theorem C5_range_error_iff [Inhabited T] (v : vector T) (index : Nat) (x : T) :
    ((∃ s, v.operator_subscript index = .range_error s) ↔ index ≥ v.sizeVal) ∧
    ((∃ s, v.read_at index = .range_error s) ↔ index ≥ v.sizeVal) ∧
    ((∃ s, v.write_at index x = .range_error s) ↔ index ≥ v.sizeVal) ∧
    ((∃ s, v.insert index x = .range_error s) ↔ index > v.sizeVal) ∧
    ((∃ s, v.remove index = .range_error s) ↔ index ≥ v.sizeVal) ∧
    (v.sizeVal = 0 → ∃ s, v.remove index = .range_error s) ∧
    (¬ ∃ s, v.insert v.sizeVal x = .range_error s) := by
  refine ⟨⟨fun ⟨s, hs⟩ => ((operator_subscript_range_error v s index).1 hs).1,
      fun h => ⟨v, (operator_subscript_range_error v v index).2 ⟨h, rfl⟩⟩⟩,
    ⟨fun ⟨s, hs⟩ => ((read_at_range_error v s index).1 hs).1,
      fun h => ⟨v, (read_at_range_error v v index).2 ⟨h, rfl⟩⟩⟩,
    ⟨fun ⟨s, hs⟩ => ((write_at_range_error v s index x).1 hs).1,
      fun h => ⟨v, (write_at_range_error v v index x).2 ⟨h, rfl⟩⟩⟩,
    ⟨fun ⟨s, hs⟩ => ((insert_range_error v s index x).1 hs).1,
      fun h => ⟨v, (insert_range_error v v index x).2 ⟨h, rfl⟩⟩⟩,
    ⟨fun ⟨s, hs⟩ => ((remove_range_error v s index).1 hs).1,
      fun h => ⟨v, (remove_range_error v v index).2 ⟨h, rfl⟩⟩⟩,
    fun h0 => ⟨v, (remove_range_error v v index).2 ⟨by omega, rfl⟩⟩, ?_⟩
  rintro ⟨s, hs⟩
  have := ((insert_range_error v s v.sizeVal x).1 hs).1
  omega

/-- C6: whenever `operator[]` (used bare, for a read or for a write), `insert` or `remove`
raises the out-of-bounds error, the state at the throw is the state before the call: size,
capacity, buffer contents and policy are unchanged; in particular a failing `insert` on a
full container has not run the growth policy. -/
theorem C6_range_error_keeps_state [Inhabited T] (v : vector T) (index : Nat) (x : T) :
    (∀ s, v.operator_subscript index = .range_error s → s = v) ∧
    (∀ s, v.read_at index = .range_error s → s = v) ∧
    (∀ s, v.write_at index x = .range_error s → s = v) ∧
    (∀ s, v.insert index x = .range_error s → s = v) ∧
    (∀ s, v.remove index = .range_error s → s = v) ∧
    (index ≥ v.sizeVal → v.operator_subscript index = .range_error v) ∧
    (index > v.sizeVal → v.insert index x = .range_error v) ∧
    (index ≥ v.sizeVal → v.remove index = .range_error v) :=
  ⟨fun s hs => ((operator_subscript_range_error v s index).1 hs).2,
    fun s hs => ((read_at_range_error v s index).1 hs).2,
    fun s hs => ((write_at_range_error v s index x).1 hs).2,
    fun s hs => ((insert_range_error v s index x).1 hs).2,
    fun s hs => ((remove_range_error v s index).1 hs).2,
    fun h => (operator_subscript_range_error v v index).2 ⟨h, rfl⟩,
    fun h => (insert_range_error v v index x).2 ⟨h, rfl⟩,
    fun h => (remove_range_error v v index).2 ⟨h, rfl⟩⟩

/-! ## Indexed access -/

/-- Reading `container[j]` below `sizeVal` and inside the buffer returns the slot and the
same state. -/
theorem read_at_of_lt (v : vector T) (j : Nat) (h1 : j < v.sizeVal) (h2 : j < v.data.length) :
    v.read_at j = .ok v v.data[j] := by
  simp only [vector.read_at, vector.operator_subscript, if_neg (show ¬ j ≥ v.sizeVal by omega),
    if_pos h2, Outcome.bind_ok, vector.load, buf_read_of_lt h2]

/-- C7: on a well-formed container and for `i < size`, `operator[]` and the read
`container[i]` return with the very state they were called on (size, capacity, buffer and
policy unchanged); and after the write `container[i] = x` the read `container[i]` returns
`x`, size and capacity are what they were, and `container[j]` for every other `j < size`
returns what it returned before the write. -/
theorem C7_subscript_read_write (v : vector T) (i : Nat) (x : T)
    (hwf : v.WellFormed) (hi : i < v.sizeVal) :
    v.operator_subscript i = .ok v i ∧
    (∃ y, v.read_at i = .ok v y) ∧
    ∃ v', v.write_at i x = .ok v' () ∧
      v'.sizeVal = v.sizeVal ∧ v'.capacityVal = v.capacityVal ∧
      v'.read_at i = .ok v' x ∧
      ∀ j, j < v.sizeVal → j ≠ i → ∃ y, v.read_at j = .ok v y ∧ v'.read_at j = .ok v' y := by
  have hdl : v.sizeVal ≤ v.data.length := by rw [hwf.2]; exact hwf.1
  have hil : i < v.data.length := by omega
  have hsub : v.operator_subscript i = .ok v i := by
    simp only [vector.operator_subscript, if_neg (show ¬ i ≥ v.sizeVal by omega), if_pos hil]
  refine ⟨hsub, ⟨_, read_at_of_lt v i hi hil⟩, { v with data := v.data.set i x }, ?_, rfl, rfl,
    ?_, fun j hj hne => ?_⟩
  · simp only [vector.write_at, hsub, Outcome.bind_ok, vector.store, buf_write_of_lt _ hil,
      Option.map_some']
  · have hl : i < (v.data.set i x).length := by rw [List.length_set]; exact hil
    rw [read_at_of_lt { v with data := v.data.set i x } i hi hl]
    simp only [List.getElem_set_self]
  · have hjl : j < v.data.length := by omega
    have hl : j < (v.data.set i x).length := by rw [List.length_set]; exact hjl
    refine ⟨v.data[j], read_at_of_lt v j hj hjl, ?_⟩
    rw [read_at_of_lt { v with data := v.data.set i x } j hj hl]
    simp only [List.getElem_set_ne (Ne.symm hne)]

/-- C7 at the container `{1, 2, 3}`: `container[1] = 42` makes `container[1]` read 42 and
leaves `container[0]` and `container[2]` as they were. -/
theorem C7_subscript_read_write_witness :
    sample_literal.WellFormed ∧ sample_literal.operator_subscript 1 = .ok sample_literal 1 ∧
      ∃ v', sample_literal.write_at 1 42 = .ok v' () ∧ v'.read_at 1 = .ok v' 42 ∧
        v'.elems = [1, 42, 3] := by
  have hwf : sample_literal.WellFormed := by decide
  obtain ⟨h1, _, v', h2, _, _, h3, _⟩ :=
    C7_subscript_read_write sample_literal 1 42 hwf (by decide)
  refine ⟨hwf, h1, v', h2, h3, ?_⟩
  have h4 : sample_literal.write_at 1 42
      = .ok { sample_literal with data := [1, 42, 3, 0, 0, 0, 0, 0, 0, 0] } () := rfl
  rw [h4] at h2
  cases h2
  rfl

/-! ## `clear` and the reuse of capacity -/

/-- Effect of `add` on a container that is not full and has a free slot: no `resize()`,
one buffer write, one increment. -/
theorem add_not_full [Inhabited T] (v : vector T) (x : T) (hne : v.sizeVal ≠ v.capacityVal)
    (hlt : v.sizeVal < v.data.length) :
    v.add x = .ok { v with data := v.data.set v.sizeVal x,
                           sizeVal := (v.sizeVal + 1) % SIZE_MOD } () := by
  simp only [vector.add, vector.resize_if_full, if_neg hne, Outcome.bind_ok,
    buf_write_of_lt _ hlt]

/-- A run of `add` calls that fits in the free slots of a container whose buffer has
`capacity` slots: every call returns, capacity and policy stay, the values are appended,
and the outcome is the same under any other policy (the policy is never consulted). -/
theorem add_all_within_capacity [Inhabited T] : ∀ (L : List T) (v : vector T),
    v.data.length = v.capacityVal → v.capacityVal < SIZE_MOD →
    v.sizeVal + L.length ≤ v.capacityVal →
    ∃ v', add_all v L = .ok v' () ∧ v'.capacityVal = v.capacityVal ∧
      v'.resize_func_ = v.resize_func_ ∧ v'.sizeVal = v.sizeVal + L.length ∧
      v'.elems = v.elems ++ L ∧
      ∀ g, add_all ({ v with resize_func_ := g } : vector T) L
        = .ok { v' with resize_func_ := g } () := by
  intro L
  induction L with
  | nil =>
    intro v _ _ _
    exact ⟨v, rfl, rfl, rfl, rfl, by rw [List.append_nil], fun g => rfl⟩
  | cons x rest ih =>
    intro v hlen hcap hfit
    rw [List.length_cons] at hfit
    have hne : v.sizeVal ≠ v.capacityVal := by omega
    have hlt : v.sizeVal < v.data.length := by omega
    have hmod : (v.sizeVal + 1) % SIZE_MOD = v.sizeVal + 1 := Nat.mod_eq_of_lt (by omega)
    have hadd := add_not_full v x hne hlt
    rw [hmod] at hadd
    obtain ⟨v', hall, hc', hp', hs', he', hg'⟩ :=
      ih { v with data := v.data.set v.sizeVal x, sizeVal := v.sizeVal + 1 }
        (by simp only [List.length_set]; exact hlen) hcap (by simp only; omega)
    refine ⟨v', ?_, hc', hp', ?_, ?_, fun g => ?_⟩
    · simp only [add_all, hadd, Outcome.bind_ok, hall]
    · rw [hs', List.length_cons]; simp only; omega
    · rw [he', elems_of_append v _ x (by omega) rfl
        (by simp only [List.getElem?_set, if_pos hlt, if_true])
        (fun j hj => by simp only [List.getElem?_set, if_neg (show ¬ v.sizeVal = j by omega)]),
        List.append_assoc, List.singleton_append]
    · have hpol := add_policy v g x (fun hf => absurd hf hne)
      simp only [add_all, hpol, hadd, Outcome.with_policy, Outcome.bind_ok]
      exact hg' g

/-- On a container whose buffer has `capacity` slots, `clear()` followed by `k ≤ capacity`
calls of `add` returns with the capacity unchanged, size `k` and the `k` values as the
logical contents, whatever the growth policy. -/
theorem clear_then_add_all [Inhabited T] (v : vector T) (L : List T)
    (hlen : v.data.length = v.capacityVal) (hcap : v.capacityVal < SIZE_MOD)
    (hL : L.length ≤ v.capacityVal) :
    ∃ v0 v', v.clear = .ok v0 () ∧ v0.sizeVal = 0 ∧ v0.capacityVal = v.capacityVal ∧
      v0.data = v.data ∧ add_all v0 L = .ok v' () ∧ v'.capacityVal = v.capacityVal ∧
      v'.sizeVal = L.length ∧ v'.elems = L ∧
      ∀ g, add_all ({ v0 with resize_func_ := g } : vector T) L
        = .ok { v' with resize_func_ := g } () := by
  obtain ⟨v', hall, hc', _, hs', he', hg'⟩ :=
    add_all_within_capacity L { v with sizeVal := 0 } hlen hcap (by simp only; omega)
  refine ⟨{ v with sizeVal := 0 }, v', rfl, rfl, rfl, rfl, hall, hc', ?_, ?_, hg'⟩
  · rw [hs']; simp only [Nat.zero_add]
  · rw [he']; simp only [vector.elems, List.take_zero, List.nil_append]

/-- C8 at a container made by the sized constructor: `vector(20)` records capacity 40 on
the 10-slot buffer of `vector()`; after `clear()` ten `add` calls return, and the eleventh
(`k = 11 ≤ c = 40`) writes slot 10, outside the buffer. -/
theorem C8_sized_container_clear_then_add :
    (vector.ctor_size 20 : vector Nat).capacityVal = 40 ∧
    (vector.ctor_size 20 : vector Nat).data.length = 10 ∧
    ∃ v0 v10, (vector.ctor_size 20 : vector Nat).clear = .ok v0 () ∧
      v0.sizeVal = 0 ∧ v0.capacityVal = 40 ∧
      add_all v0 (List.range 10) = .ok v10 () ∧
      v10.sizeVal = 10 ∧ v10.capacityVal = 40 ∧
      v10.add 10 = .undefined ∧
      add_all v0 (List.range 11) = .undefined :=
  ⟨rfl, rfl, _, _, rfl, rfl, rfl, rfl, rfl, rfl, rfl, rfl⟩

/-! ## Iteration -/

/-- The traversal loop from position `p` to the end position `n`, with `k = n - p`
elements left and enough fuel, visits the buffer slots `[p, n)` in order. -/
theorem traverse_from (d : List T) (n : Nat) (hn : n ≤ d.length) (hmod : n < SIZE_MOD) :
    ∀ (k p fuel : Nat), p + k = n → k ≤ fuel →
      traverse fuel ⟨p, some d⟩ ⟨n, some d⟩ = some ((d.take n).drop p) := by
  intro k
  induction k with
  | zero =>
    intro p fuel hp _
    have hpn : p = n := by omega
    subst hpn
    have hnil : (d.take p).drop p = [] := List.drop_eq_nil_of_le (by rw [List.length_take]; omega)
    rw [hnil]
    cases fuel <;> simp [traverse, iterator.operator_ne]
  | succ k ih =>
    intro p fuel hp hf
    obtain ⟨fuel, rfl⟩ : ∃ f, fuel = f + 1 := ⟨fuel - 1, by omega⟩
    have hpn : p ≠ n := by omega
    have hpl : p < d.length := by omega
    have hinc : (p + 1) % SIZE_MOD = p + 1 := Nat.mod_eq_of_lt (by omega)
    have hrec := ih (p + 1) fuel (by omega) (by omega)
    have hplt : p < (d.take n).length := by rw [List.length_take]; omega
    rw [List.drop_eq_getElem_cons hplt]
    simp only [traverse, iterator.operator_ne, bne_iff_ne, ne_eq, hpn, not_false_eq_true,
      if_true, iterator.operator_deref, buf_read_of_lt hpl, iterator.operator_inc, hinc, hrec,
      Option.map_some', List.getElem_take]

/-- The traversal loop cannot finish with fewer dereferences than elements left. -/
theorem traverse_short (d : List T) (n : Nat) (hn : n ≤ d.length) (hmod : n < SIZE_MOD) :
    ∀ (fuel p : Nat), p + fuel < n → traverse fuel ⟨p, some d⟩ ⟨n, some d⟩ = none := by
  intro fuel
  induction fuel with
  | zero =>
    intro p hp
    have hpn : p ≠ n := by omega
    simp [traverse, iterator.operator_ne, hpn]
  | succ fuel ih =>
    intro p hp
    have hpn : p ≠ n := by omega
    have hpl : p < d.length := by omega
    have hinc : (p + 1) % SIZE_MOD = p + 1 := Nat.mod_eq_of_lt (by omega)
    have hrec := ih (p + 1) (by omega)
    simp only [traverse, iterator.operator_ne, bne_iff_ne, ne_eq, hpn, not_false_eq_true,
      if_true, iterator.operator_deref, buf_read_of_lt hpl, iterator.operator_inc, hinc, hrec,
      Option.map_none']

/-- C9: on a well-formed container with `n = size` logical elements, the loop that starts
at `begin()`, dereferences and increments while the iterator differs from `end()`, stops
after exactly `n` dereferences (with `n` or more steps allowed it has stopped, with fewer
it has not) and has seen the elements `e_0, .., e_(n-1)` in order, each once; on an empty
container `begin() == end()` and nothing is visited. -/
theorem C9_iteration_visits_elems (v : vector T) (hwf : v.WellFormed) (hr : v.InRange) :
    traverse v.sizeVal v.begin v.end_ = some v.elems ∧
    v.elems.length = v.sizeVal ∧
    (∀ i, i < v.sizeVal → v.elems[i]? = v.data[i]?) ∧
    (∀ fuel, v.sizeVal ≤ fuel → traverse fuel v.begin v.end_ = some v.elems) ∧
    (∀ fuel, fuel < v.sizeVal → traverse fuel v.begin v.end_ = none) ∧
    (v.sizeVal = 0 → v.begin.operator_eq v.end_ = true ∧
      traverse 0 v.begin v.end_ = some []) := by
  have hdl : v.sizeVal ≤ v.data.length := by rw [hwf.2]; exact hwf.1
  have hmod : v.sizeVal < SIZE_MOD := hr.2.1
  have hall : ∀ fuel, v.sizeVal ≤ fuel → traverse fuel v.begin v.end_ = some v.elems := by
    intro fuel hf
    have := traverse_from v.data v.sizeVal hdl hmod v.sizeVal 0 fuel (by omega) hf
    simpa only [List.drop_zero] using this
  refine ⟨hall _ (Nat.le_refl _), elems_length v hdl, fun i hi => ?_, hall, fun fuel hf => ?_,
    fun h0 => ⟨?_, ?_⟩⟩
  · rw [elems_getElem?, if_pos hi]
  · exact traverse_short v.data v.sizeVal hdl hmod fuel 0 (by omega)
  · simp only [iterator.operator_eq, vector.begin, vector.end_, iterator.ctor_ptr,
      iterator.ctor_pos_ptr, h0, beq_self_eq_true]
  · have := hall 0 (by omega)
    rw [this]
    simp only [vector.elems, h0, List.take_zero]

/-- C9 at the container `{1, 2, 3}`: the loop visits 1, 2, 3 in three dereferences. -/
theorem C9_iteration_visits_elems_witness :
    sample_literal.WellFormed ∧
      traverse 3 sample_literal.begin sample_literal.end_ = some [1, 2, 3] ∧
      traverse 2 sample_literal.begin sample_literal.end_ = none := by
  have hwf : sample_literal.WellFormed := by decide
  obtain ⟨h1, _, _, _, h5, _⟩ := C9_iteration_visits_elems sample_literal hwf
    ⟨by decide, by decide, fun n _ => default_policy_lt n⟩
  exact ⟨hwf, h1, h5 2 (by decide)⟩

/-! ## The literal-sequence constructor under the default policy -/

/-- The initial state made by `vector()` satisfies the doubling invariant. -/
theorem ctor_doubling [Inhabited T] : (vector.ctor : vector T).DoublingInv :=
  ⟨⟨Nat.zero_le _, by simp only [vector.ctor, make_shared, List.length_replicate]⟩, rfl,
    0, Nat.zero_le _, rfl⟩

/-- Under the doubling invariant `add` returns below `10 * 2 ^ 60` elements, keeps the
invariant, appends the value and doubles the capacity exactly when the container was
full. -/
theorem add_doubling [Inhabited T] (v : vector T) (x : T) (hinv : v.DoublingInv)
    (hsz : v.sizeVal < 10 * 2 ^ 60) :
    ∃ v', v.add x = .ok v' () ∧ v'.DoublingInv ∧ v'.sizeVal = v.sizeVal + 1 ∧
      v'.elems = v.elems ++ [x] ∧
      v'.capacityVal = (if v.sizeVal = v.capacityVal then 2 * v.capacityVal
        else v.capacityVal) := by
  obtain ⟨hwf, hpol, k, hk, hcap⟩ := hinv
  have hdl : v.sizeVal ≤ v.data.length := by rw [hwf.2]; exact hwf.1
  have hpow : (2 : Nat) ^ k ≤ 2 ^ 60 := Nat.pow_le_pow_right (by decide) hk
  have hcaplt : v.capacityVal < SIZE_MOD := by
    unfold SIZE_MOD
    omega
  have hr : v.InRange := ⟨hcaplt, Nat.lt_of_le_of_lt hwf.1 hcaplt, fun n _ => by
    rw [hpol]; exact default_policy_lt n⟩
  have hfull : v.sizeVal = v.capacityVal →
      k + 1 ≤ 60 ∧ v.resize_func_ v.sizeVal = 10 * 2 ^ (k + 1) := by
    intro hf
    have hk1 : k < 60 := by
      by_contra hc
      have : (2 : Nat) ^ 60 ≤ 2 ^ k := Nat.pow_le_pow_right (by decide) (by omega)
      omega
    have hpow1 : (2 : Nat) ^ (k + 1) ≤ 2 ^ 60 := Nat.pow_le_pow_right (by decide) hk1
    have hsucc : (2 : Nat) ^ (k + 1) = 2 * 2 ^ k := by rw [Nat.pow_succ, Nat.mul_comm]
    refine ⟨hk1, ?_⟩
    rw [hpol, hf, hcap]
    unfold default_policy SIZE_MOD
    omega
  have hg : v.GrowsWhenFull := by
    intro hf
    have := (hfull hf).2
    have hpos : 0 < (2 : Nat) ^ k := Nat.pow_pos (by decide)
    have hsucc : (2 : Nat) ^ (k + 1) = 2 * 2 ^ k := by rw [Nat.pow_succ, Nat.mul_comm]
    omega
  obtain ⟨v', hadd, hsz', hpol', hcap', hlen', hlt', hat, hget⟩ := add_ok v x hwf hr hg
  refine ⟨v', hadd, ⟨⟨by omega, hlen'⟩, by rw [hpol', hpol], ?_⟩, hsz',
    elems_of_append v v' x hdl hsz' hat hget, ?_⟩
  · by_cases hf : v.sizeVal = v.capacityVal
    · exact ⟨k + 1, (hfull hf).1, by rw [hcap', if_pos hf, (hfull hf).2]⟩
    · exact ⟨k, hk, by rw [hcap', if_neg hf, hcap]⟩
  · by_cases hf : v.sizeVal = v.capacityVal
    · have hsucc : (2 : Nat) ^ (k + 1) = 2 * 2 ^ k := by rw [Nat.pow_succ, Nat.mul_comm]
      rw [hcap', if_pos hf, if_pos hf, (hfull hf).2]
      omega
    · rw [hcap', if_neg hf, if_neg hf]

/-- Under the doubling invariant the loop of `add` calls over a list returns while the
total stays at most `10 * 2 ^ 60`; it keeps the invariant and appends the list. -/
theorem add_all_doubling [Inhabited T] : ∀ (L : List T) (v : vector T), v.DoublingInv →
    v.sizeVal + L.length ≤ 10 * 2 ^ 60 →
    ∃ v', add_all v L = .ok v' () ∧ v'.DoublingInv ∧ v'.sizeVal = v.sizeVal + L.length ∧
      v'.elems = v.elems ++ L := by
  intro L
  induction L with
  | nil =>
    intro v hinv _
    exact ⟨v, rfl, hinv, rfl, by rw [List.append_nil]⟩
  | cons x rest ih =>
    intro v hinv hlen
    rw [List.length_cons] at hlen
    obtain ⟨v1, hadd, hinv1, hsz1, hel1, _⟩ := add_doubling v x hinv (by omega)
    obtain ⟨v', hall, hinv', hsz', hel'⟩ := ih v1 hinv1 (by omega)
    refine ⟨v', ?_, hinv', ?_, ?_⟩
    · simp only [add_all, hadd, Outcome.bind_ok, hall]
    · rw [hsz', hsz1, List.length_cons]; omega
    · rw [hel', hel1, List.append_assoc, List.singleton_append]

/-- C10: for every list `L` of values (of a length a `size_type` container can reach
under doubling, at most `10 * 2 ^ 60`), the literal-sequence constructor with the default
policy returns a container with `size == length(L)` whose `container[i]` reads `L[i]` for
every `i < length(L)`: the logical contents are `L`. -/
theorem C10_ctor_list_contents [Inhabited T] (L : List T) (hL : L.length ≤ 10 * 2 ^ 60) :
    ∃ v, vector.ctor_list L = .ok v () ∧ v.sizeVal = L.length ∧
      (∀ i (hi : i < L.length), v.read_at i = .ok v L[i]) ∧ v.elems = L := by
  obtain ⟨v, hall, hinv, hsz, hel⟩ :=
    add_all_doubling L (vector.ctor : vector T) ctor_doubling
      (by simp only [vector.ctor, Nat.zero_add]; exact hL)
  have hsz' : v.sizeVal = L.length := by rw [hsz]; simp only [vector.ctor, Nat.zero_add]
  have hel' : v.elems = L := by
    rw [hel]; simp only [vector.elems, vector.ctor, List.take_zero, List.nil_append]
  have hdl : v.sizeVal ≤ v.data.length := by rw [hinv.1.2]; exact hinv.1.1
  refine ⟨v, hall, hsz', fun i hi => ?_, hel'⟩
  have hi1 : i < v.sizeVal := by omega
  have hi2 : i < v.data.length := by omega
  rw [read_at_of_lt v i hi1 hi2]
  have h1 : v.elems[i]? = some v.data[i] := by
    rw [elems_getElem?, if_pos hi1, List.getElem?_eq_getElem hi2]
  have h2 : v.elems[i]? = some L[i] := by rw [hel', List.getElem?_eq_getElem hi]
  rw [h1, Option.some.injEq] at h2
  rw [h2]

/-- C10 on the literal `{1, 2, 3}`: size 3 and capacity 10; then `insert(1, 99)` gives
`[1, 99, 2, 3]` with size 4; then `remove(0)` gives `[99, 2, 3]` with size 3 and
`container[0] == 99`. -/
theorem C10_ctor_list_contents_witness :
    ∃ v, vector.ctor_list [1, 2, 3] = .ok v () ∧ v.sizeVal = 3 ∧ v.capacityVal = 10 ∧
      v.elems = [1, 2, 3] ∧
      ∃ v1, v.insert 1 99 = .ok v1 () ∧ v1.elems = [1, 99, 2, 3] ∧ v1.sizeVal = 4 ∧
        ∃ v2, v1.remove 0 = .ok v2 () ∧ v2.elems = [99, 2, 3] ∧ v2.sizeVal = 3 ∧
          v2.read_at 0 = .ok v2 99 := by
  obtain ⟨v, hv, hsz, _, hel⟩ := C10_ctor_list_contents [1, 2, 3] (by decide)
  have hlit : vector.ctor_list [1, 2, 3] = .ok sample_literal () := rfl
  have hveq : v = sample_literal := by
    rw [hlit] at hv
    cases hv
    rfl
  subst hveq
  exact ⟨_, hlit, hsz, rfl, hel, _, rfl, rfl, rfl, _, rfl, rfl, rfl, rfl⟩

/-! ## `insert` at the end, iterator comparison and moves -/

/-- The shift loop of `insert` does nothing when started at the index itself. -/
theorem insert_shift_self (i : Nat) (d : List T) : insert_shift i i d = some d := by
  cases i with
  | zero => rfl
  | succ i => simp only [insert_shift, gt_iff_lt, Nat.lt_irrefl, if_false]

/-- C15: for every container state and value, `insert(size, v)` and `add(v)` have the
same outcome: both return with the same size, capacity, buffer and policy (after the same
guarded `resize()` when the container is full), or both run outside the buffer; neither
throws. -/
theorem C15_insert_at_size_is_add [Inhabited T] (v : vector T) (value : T) :
    v.insert v.sizeVal value = v.add value ∧
    (∀ s, v.add value ≠ .range_error s) ∧
    (v.sizeVal = v.capacityVal → v.resize_if_full = v.resize) := by
  have heq : v.insert v.sizeVal value = v.add value := by
    simp only [vector.insert, gt_iff_lt, Nat.lt_irrefl, if_false, vector.add]
    cases hres : v.resize_if_full with
    | range_error s => rfl
    | undefined => rfl
    | ok v1 a =>
      have hsz := (resize_if_full_returns v v1 hres).1
      simp only [Outcome.bind_ok, ← hsz, insert_shift_self]
  refine ⟨heq, fun s hs => ?_, fun hfull => by simp only [vector.resize_if_full, if_pos hfull]⟩
  rw [← heq] at hs
  have := ((insert_range_error v s v.sizeVal value).1 hs).1
  omega

/-- C16: `a == b` is true exactly when the positions are equal, whatever the buffers
(equal positions over different buffers compare equal, also the default-constructed null
iterator against `begin()` of any container), and `a != b` is the negation of `a == b`. -/
theorem C16_iterator_equality_by_position (a b : iterator T) (v : vector T)
    (p : Nat) (d1 d2 : Option (List T)) :
    (a.operator_eq b = true ↔ a.pos = b.pos) ∧
    a.operator_ne b = !a.operator_eq b ∧
    (iterator.ctor_pos_ptr p d1).operator_eq (iterator.ctor_pos_ptr p d2) = true ∧
    (iterator.ctor : iterator T).operator_eq v.begin = true ∧
    v.begin.operator_eq (iterator.ctor : iterator T) = true := by
  refine ⟨?_, ?_, ?_, ?_, ?_⟩
  · simp only [iterator.operator_eq, beq_iff_eq]
  · simp only [iterator.operator_eq, iterator.operator_ne, bne]
  · simp only [iterator.operator_eq, iterator.ctor_pos_ptr, beq_self_eq_true]
  · simp only [iterator.operator_eq, iterator.ctor, iterator.ctor_ptr, vector.begin,
      beq_self_eq_true]
  · simp only [iterator.operator_eq, iterator.ctor, iterator.ctor_ptr, vector.begin,
      beq_self_eq_true]

/-- The statements of the body of the move assignment exchange two distinct objects,
leave every other object alone, and do nothing on a self-move. -/
theorem move_assign_body_swaps (mem : Nat → iterator T) (this rhs : Nat) :
    (this ≠ rhs →
      iterator.move_assign_body mem this rhs this = mem rhs ∧
      iterator.move_assign_body mem this rhs rhs = mem this ∧
      ∀ a, a ≠ this → a ≠ rhs → iterator.move_assign_body mem this rhs a = mem a) ∧
    iterator.move_assign_body mem this this = mem := by
  refine ⟨fun hne => ?_, ?_⟩
  · have hne' : rhs ≠ this := fun h => hne h.symm
    refine ⟨?_, ?_, fun a ha1 ha2 => ?_⟩
    · simp [iterator.move_assign_body, hne, hne']
    · simp [iterator.move_assign_body, hne, hne']
    · simp [iterator.move_assign_body, hne, ha1, ha2]
  · simp only [iterator.move_assign_body, ne_eq, not_true_eq_false, if_false]

/-- C17 at the move assignment: move construction does what the claim says for every
source (the new iterator has the source's position and buffer reference and the source is
left at position 0 with a null buffer), but a move assignment has no defined result for
any operands: `operator=(iterator&&)` reaches its end without returning the `iterator&` it
declares; so it is at the source at position 2 over `[7, 8]` moved into the destination at
position 5 over `[1]`, where the claim promises a destination at position 2 over `[7, 8]`
and a null source. -/
theorem C17_move_assignment_undefined (obj : iterator T) (mem : Nat → iterator T)
    (this rhs : Nat) :
    (iterator.move_ctor obj).1 = obj ∧
    (iterator.move_ctor obj).2 = { pos := 0, data := none } ∧
    iterator.operator_move_assign mem this rhs = none ∧
    iterator.operator_move_assign sample_iterators 0 1 = none ∧
    sample_iterators 0 = { pos := 5, data := some [1] } ∧
    sample_iterators 1 = { pos := 2, data := some [7, 8] } :=
  ⟨rfl, rfl, rfl, rfl, rfl, rfl⟩

/-! ## The sized constructors and policies that do not grow -/

/-- C12 at `vector(20)` and `vector(20, resize)`: size 20 and capacity 40 are recorded,
but the buffer is the 10-slot one allocated by the delegated `vector()`; `container[9]`
reads the default value and `container[15]`, an index below the size, is outside the
buffer. -/
theorem C12_sized_constructor_buffer :
    (vector.ctor_size 20 : vector Nat).sizeVal = 20 ∧
    (vector.ctor_size 20 : vector Nat).capacityVal = 40 ∧
    (vector.ctor_size 20 : vector Nat).data.length = 10 ∧
    (vector.ctor_size 20 : vector Nat).read_at 9 = .ok (vector.ctor_size 20) default ∧
    (vector.ctor_size 20 : vector Nat).read_at 15 = .undefined ∧
    (vector.ctor_size_resize 20 default_policy : vector Nat).capacityVal = 40 ∧
    (vector.ctor_size_resize 20 default_policy : vector Nat).data.length = 10 ∧
    (vector.ctor_size_resize 20 default_policy : vector Nat).read_at 15 = .undefined :=
  ⟨rfl, rfl, rfl, rfl, rfl, rfl, rfl, rfl⟩

/-- `add` never throws. -/
theorem add_ne_range_error [Inhabited T] (v s : vector T) (x : T) :
    v.add x ≠ .range_error s := by
  intro hs
  cases hres : v.resize_if_full with
  | range_error s1 => exact absurd hres (resize_if_full_ne_range_error v s1)
  | undefined => simp only [vector.add, hres, Outcome.bind_undefined] at hs; cases hs
  | ok v1 a =>
    simp only [vector.add, hres, Outcome.bind_ok] at hs
    cases hw : buf_write v1.data v1.sizeVal x with
    | none => simp only [hw] at hs; cases hs
    | some d => simp only [hw] at hs; cases hs

/-- Without room after the guarded `resize()`, `add` runs outside the buffer. -/
theorem add_undefined_iff [Inhabited T] (v : vector T) (x : T) :
    v.add x = .undefined ↔ ¬ v.has_room := by
  rw [← add_returns_iff v x]
  constructor
  · rintro h ⟨v', hv'⟩
    rw [h] at hv'
    cases hv'
  · intro h
    cases hadd : v.add x with
    | ok v' a => exact absurd ⟨v', hadd⟩ h
    | range_error s => exact absurd hadd (add_ne_range_error v s x)
    | undefined => rfl

/-- C14 (as amended): on a full container whose growth policy returns a value `≤ size`,
`add(v)` does not complete: it accesses the new buffer out of range.  The least policy
result with which `add(v)` completes on a full well-formed container is `size + 1`; then
the container is full again after the call and the next `add` runs `resize()`, so the
growth policy is invoked again. -/
theorem C14_growth_retrigger [Inhabited T] (v : vector T) (x : T)
    (hfull : v.sizeVal = v.capacityVal) :
    (v.resize_func_ v.sizeVal ≤ v.sizeVal → v.add x = .undefined) ∧
    (v.WellFormed → v.InRange → v.resize_func_ v.sizeVal = v.sizeVal + 1 →
      ∃ v', v.add x = .ok v' () ∧ v'.sizeVal = v.sizeVal + 1 ∧
        v'.sizeVal = v'.capacityVal ∧ v'.resize_if_full = v'.resize ∧
        v'.WellFormed ∧ v'.elems = v.elems ++ [x]) := by
  constructor
  · intro hle
    rw [add_undefined_iff]
    simp only [vector.has_room, if_pos hfull]
    omega
  · intro hwf hr hstep
    have hg : v.GrowsWhenFull := fun _ => by omega
    have hdl : v.sizeVal ≤ v.data.length := by rw [hwf.2]; exact hwf.1
    obtain ⟨v', hadd, hsz, _, hcap, hlen, _, hat, hget⟩ := add_ok v x hwf hr hg
    rw [if_pos hfull, hstep] at hcap
    have hfull' : v'.sizeVal = v'.capacityVal := by rw [hsz, hcap]
    refine ⟨v', hadd, hsz, hfull', ?_, ⟨by omega, hlen⟩,
      elems_of_append v v' x hdl hsz hat hget⟩
    simp only [vector.resize_if_full, if_pos hfull']

/-- C14 at the full container `[1, 2, 3]` whose policy returns `size + 1`: `add(7)`
completes and leaves the container full again with capacity 4. -/
theorem C14_growth_retrigger_witness :
    sample_step_policy.sizeVal = sample_step_policy.capacityVal ∧
      ∃ v', sample_step_policy.add 7 = .ok v' () ∧ v'.sizeVal = 4 ∧
        v'.sizeVal = v'.capacityVal ∧ v'.elems = [1, 2, 3, 7] := by
  have hfull : sample_step_policy.sizeVal = sample_step_policy.capacityVal := rfl
  obtain ⟨v', h1, h2, h3, _, _, h6⟩ :=
    (C14_growth_retrigger sample_step_policy 7 hfull).2 (by decide)
      ⟨by decide, by decide, fun n _ => Nat.mod_lt _ (by decide)⟩ rfl
  exact ⟨hfull, v', h1, h2, h3, h6⟩

/-- C14 as stated fails: the container built by `vector(resize)` with the policy that
returns its argument is full after ten `add` calls; the policy then returns 10, not more
than the size, and the eleventh `add` writes slot 10 of a 10-slot buffer: it does not
complete. -/
theorem C14_counterexample :
    add_all (vector.ctor_resize fun n => n) (List.range 10) = .ok sample_same_policy () ∧
    sample_same_policy.sizeVal = sample_same_policy.capacityVal ∧
    sample_same_policy.resize_func_ sample_same_policy.sizeVal ≤ sample_same_policy.sizeVal ∧
    sample_same_policy.add 10 = .undefined ∧
    ¬ ∃ v', sample_same_policy.add 10 = .ok v' () := by
  refine ⟨rfl, rfl, by decide, rfl, ?_⟩
  rintro ⟨v', h⟩
  have h2 : sample_same_policy.add 10 = .undefined := rfl
  rw [h2] at h
  cases h

/-! ## Explicit `resize()` and the insert/remove round trip -/

/-- C18 (as amended): on a well-formed container with the default policy (and a size
whose double is a `size_type` value), `resize()` returns, sets the capacity to twice the
size, whatever the capacity was, keeps the size and keeps every element below the size;
the new capacity is at least the old one exactly when twice the size is, as on a full
container. -/
theorem C18_explicit_resize [Inhabited T] (v : vector T) (hwf : v.WellFormed)
    (hpol : v.resize_func_ = default_policy) (hsz : v.sizeVal * 2 < SIZE_MOD) :
    ∃ v', v.resize = .ok v' () ∧
      v'.capacityVal = 2 * v.sizeVal ∧
      v'.sizeVal = v.sizeVal ∧
      (∀ j, j < v.sizeVal → v'.data[j]? = v.data[j]?) ∧
      v'.elems = v.elems ∧
      v'.WellFormed ∧
      (v.capacityVal ≤ v'.capacityVal ↔ v.capacityVal ≤ 2 * v.sizeVal) ∧
      (v.sizeVal = v.capacityVal → v.capacityVal ≤ v'.capacityVal) := by
  have hdl : v.sizeVal ≤ v.data.length := by rw [hwf.2]; exact hwf.1
  have hf : v.resize_func_ v.sizeVal = 2 * v.sizeVal := by
    rw [hpol]
    unfold default_policy
    rw [Nat.mod_eq_of_lt hsz, Nat.mul_comm]
  obtain ⟨nd, hres, hlen, hget⟩ := resize_ok v hdl (by omega)
  refine ⟨{ v with capacityVal := v.resize_func_ v.sizeVal, data := nd }, hres, hf, rfl,
    fun j hj => ?_, ?_, ⟨?_, ?_⟩, ?_, ?_⟩
  · show nd[j]? = v.data[j]?
    rw [hget j, if_pos hj]
  · apply List.ext_getElem?
    intro j
    rw [elems_getElem?, elems_getElem?]
    show (if j < v.sizeVal then nd[j]? else none) = _
    by_cases hj : j < v.sizeVal
    · rw [if_pos hj, if_pos hj, hget j, if_pos hj]
    · rw [if_neg hj, if_neg hj]
  · show v.sizeVal ≤ v.resize_func_ v.sizeVal
    omega
  · exact hlen
  · show v.capacityVal ≤ v.resize_func_ v.sizeVal ↔ _
    rw [hf]
  · intro hfull
    show v.capacityVal ≤ v.resize_func_ v.sizeVal
    omega

/-- C18 at the container `{1, 2, 3}` (size 3, capacity 10): `resize()` returns with
capacity 6. -/
theorem C18_explicit_resize_witness :
    sample_literal.WellFormed ∧
      ∃ v', sample_literal.resize = .ok v' () ∧ v'.capacityVal = 6 ∧ v'.sizeVal = 3 ∧
        v'.elems = [1, 2, 3] := by
  have hwf : sample_literal.WellFormed := by decide
  obtain ⟨v', h1, h2, h3, _, h5, _⟩ := C18_explicit_resize sample_literal hwf rfl (by decide)
  exact ⟨hwf, v', h1, h2, h3, h5⟩

/-- C18 as stated fails: on the well-formed container `{1, 2, 3}` with the default policy
(capacity 10) `resize()` lowers the capacity to 6, and on the empty container made by
`vector()` it lowers the capacity from 10 to 0. -/
theorem C18_counterexample :
    sample_literal.WellFormed ∧ sample_literal.resize_func_ = default_policy ∧
    sample_literal.capacityVal = 10 ∧
    (∃ v', sample_literal.resize = .ok v' () ∧ v'.capacityVal = 6 ∧
      ¬ sample_literal.capacityVal ≤ v'.capacityVal) ∧
    (∃ v', (vector.ctor : vector Nat).resize = .ok v' () ∧ v'.capacityVal = 0) :=
  ⟨by decide, rfl, rfl, ⟨_, rfl, rfl, by decide⟩, ⟨_, rfl, rfl⟩⟩

/-- Effect of `insert(i, x)` followed by `remove(i)` on a well-formed container whose
policy grows: both calls return and every slot below the original size is restored. -/
theorem restore_after_insert_remove [Inhabited T] (v : vector T) (i : Nat) (x : T)
    (hwf : v.WellFormed) (hr : v.InRange) (hg : v.GrowsWhenFull) (hi : i ≤ v.sizeVal) :
    ∃ v1 v2, v.insert i x = .ok v1 () ∧ v1.remove i = .ok v2 () ∧
      v1.sizeVal = v.sizeVal + 1 ∧ v2.sizeVal = v.sizeVal ∧
      (∀ j, j < v.sizeVal → v2.data[j]? = v.data[j]?) ∧
      v.capacityVal ≤ v1.capacityVal ∧ v2.capacityVal = v1.capacityVal ∧
      v2.resize_func_ = v.resize_func_ ∧ v2.data.length = v2.capacityVal := by
  obtain ⟨v1, hins, hsz1, hpol1, hcap1, hlen1, hlt1, hget1⟩ := insert_ok v i x hwf hr hg hi
  obtain ⟨d, hrem, hdlen, hget2⟩ := remove_ok v1 i (by omega) (by omega)
  refine ⟨v1, _, hins, hrem, hsz1, by show v1.sizeVal - 1 = v.sizeVal; omega, fun j hj => ?_,
    ?_, rfl, hpol1, by show d.length = v1.capacityVal; omega⟩
  · show d[j]? = v.data[j]?
    rw [hget2 j]
    by_cases h1 : j < i
    · rw [if_neg (by omega), hget1 j (by omega), if_pos h1]
    · rw [if_pos (by omega), hget1 (j + 1) (by omega), if_neg (by omega), if_neg (by omega),
        Nat.add_sub_cancel]
  · rw [hcap1]
    split
    · next hfull => have := hg hfull; omega
    · exact Nat.le_refl _

/-- C20: on a well-formed container whose policy returns more than `size` when full, for
every `i ≤ size` and every value `x`, `insert(i, x)` followed by `remove(i)` returns and
restores the logical contents: the size is the original size and every element at an index
`j < size` is the original element at `j`; the capacity is the one after the insert, never
below the original. -/
theorem C20_insert_remove_round_trip [Inhabited T] (v : vector T) (i : Nat) (x : T)
    (hwf : v.WellFormed) (hr : v.InRange) (hg : v.GrowsWhenFull) (hi : i ≤ v.sizeVal) :
    ∃ v2, (v.insert i x).bind (fun v1 _ => v1.remove i) = .ok v2 () ∧
      v2.sizeVal = v.sizeVal ∧
      (∀ j, j < v.sizeVal → v2.data[j]? = v.data[j]?) ∧
      v2.elems = v.elems ∧
      v.capacityVal ≤ v2.capacityVal ∧
      v2.WellFormed := by
  obtain ⟨v1, v2, hins, hrem, _, hsz, hget, hcap1, hcap2, _, hlen⟩ :=
    restore_after_insert_remove v i x hwf hr hg hi
  refine ⟨v2, by rw [hins, Outcome.bind_ok, hrem], hsz, hget, ?_, by omega, ⟨?_, hlen⟩⟩
  · apply List.ext_getElem?
    intro j
    rw [elems_getElem?, elems_getElem?, hsz]
    by_cases hj : j < v.sizeVal
    · rw [if_pos hj, if_pos hj, hget j hj]
    · rw [if_neg hj, if_neg hj]
  · have := hwf.1
    omega

/-- C20 at the full container `[1, 2, 3]` (capacity 3, default policy): `insert(1, 99)`
then `remove(1)` gives `[1, 2, 3]` again, with the capacity grown to 6. -/
theorem C20_insert_remove_round_trip_witness :
    sample_full.WellFormed ∧ sample_full.GrowsWhenFull ∧
      ∃ v2, (sample_full.insert 1 99).bind (fun v1 _ => v1.remove 1) = .ok v2 () ∧
        v2.sizeVal = 3 ∧ v2.elems = [1, 2, 3] ∧ v2.capacityVal = 6 := by
  have hwf : sample_full.WellFormed := by decide
  have hg : sample_full.GrowsWhenFull := by decide
  obtain ⟨v2, h1, h2, _, h4, _, _⟩ := C20_insert_remove_round_trip sample_full 1 99 hwf
    ⟨by decide, by decide, fun n _ => default_policy_lt n⟩ hg (by decide)
  refine ⟨hwf, hg, v2, h1, h2, h4, ?_⟩
  have h5 : (sample_full.insert 1 99).bind (fun v1 _ => v1.remove 1)
      = .ok { sample_full with capacityVal := 6, data := [1, 2, 3, 3, 0, 0] } () := rfl
  rw [h5] at h1
  cases h1
  rfl

/-! ## Capacity after `n` appends -/

/-- The initial state made by `vector()` has the least capacity `10 * 2 ^ j`. -/
theorem ctor_tight [Inhabited T] : (vector.ctor : vector T).TightInv := by
  refine ⟨ctor_doubling, fun j _ => ?_⟩
  have : 1 ≤ 2 ^ j := Nat.one_le_two_pow
  show 10 ≤ 10 * 2 ^ j
  omega

/-- Under the doubling invariant with the least capacity, `add` keeps the capacity least:
it doubles exactly when the container was full. -/
theorem add_tight [Inhabited T] (v : vector T) (x : T) (hinv : v.TightInv)
    (hsz : v.sizeVal < 10 * 2 ^ 60) :
    ∃ v', v.add x = .ok v' () ∧ v'.TightInv ∧ v'.sizeVal = v.sizeVal + 1 ∧
      v'.elems = v.elems ++ [x] ∧
      v'.capacityVal = (if v.sizeVal = v.capacityVal then 2 * v.capacityVal
        else v.capacityVal) := by
  obtain ⟨hd, hleast⟩ := hinv
  obtain ⟨v', hadd, hd', hsz', hel', hcap'⟩ := add_doubling v x hd hsz
  refine ⟨v', hadd, ⟨hd', fun j hj => ?_⟩, hsz', hel', hcap'⟩
  rw [hsz'] at hj
  rw [hcap']
  by_cases hfull : v.sizeVal = v.capacityVal
  · rw [if_pos hfull]
    obtain ⟨_, _, k, _, hk⟩ := hd
    have hlt : 2 ^ k < 2 ^ j := by omega
    have hkj : k < j := (Nat.pow_lt_pow_iff_right (by decide)).1 hlt
    have hle : 2 ^ (k + 1) ≤ 2 ^ j := Nat.pow_le_pow_right (by decide) hkj
    have hsucc : (2 : Nat) ^ (k + 1) = 2 * 2 ^ k := by rw [Nat.pow_succ, Nat.mul_comm]
    omega
  · rw [if_neg hfull]
    exact hleast j (by omega)

/-- The loop of `add` calls from a state with the least capacity keeps it least. -/
theorem add_all_tight [Inhabited T] : ∀ (L : List T) (v : vector T), v.TightInv →
    v.sizeVal + L.length ≤ 10 * 2 ^ 60 →
    ∃ v', add_all v L = .ok v' () ∧ v'.TightInv ∧ v'.sizeVal = v.sizeVal + L.length := by
  intro L
  induction L with
  | nil =>
    intro v hinv _
    exact ⟨v, rfl, hinv, rfl⟩
  | cons x rest ih =>
    intro v hinv hlen
    rw [List.length_cons] at hlen
    obtain ⟨v1, hadd, hinv1, hsz1, _, _⟩ := add_tight v x hinv (by omega)
    obtain ⟨v', hall, hinv', hsz'⟩ := ih v1 hinv1 (by omega)
    refine ⟨v', ?_, hinv', ?_⟩
    · simp only [add_all, hadd, Outcome.bind_ok, hall]
    · rw [hsz', hsz1, List.length_cons]; omega

/-- The loop of `add` calls over `L1 ++ L2` is the loop over `L1` followed by the loop
over `L2`. -/
theorem add_all_append [Inhabited T] : ∀ (L1 L2 : List T) (v : vector T),
    add_all v (L1 ++ L2) = (add_all v L1).bind fun v1 _ => add_all v1 L2 := by
  intro L1
  induction L1 with
  | nil => intro L2 v; rfl
  | cons x rest ih =>
    intro L2 v
    simp only [List.cons_append, add_all]
    cases v.add x with
    | ok v1 a => exact ih L2 v1
    | range_error s => rfl
    | undefined => rfl

/-- C11: appending the `n` values of a list `L` (with `n` at most `10 * 2 ^ 60`, the
largest capacity of this form that is a `size_type` value) to the container made by
`vector()` returns with `size == n` and capacity `10 * 2 ^ k` for the least `k` with
`10 * 2 ^ k ≥ n`, which is capacity 10 when `n ≤ 10`; and at every append of the run the
capacity doubles if that append finds `size == capacity` and is unchanged otherwise. -/
theorem C11_append_n_capacity [Inhabited T] (L : List T) (hL : L.length ≤ 10 * 2 ^ 60) :
    ∃ v k, add_all (vector.ctor : vector T) L = .ok v () ∧
      v.sizeVal = L.length ∧
      v.capacityVal = 10 * 2 ^ k ∧
      L.length ≤ 10 * 2 ^ k ∧
      (∀ j, L.length ≤ 10 * 2 ^ j → k ≤ j) ∧
      (L.length ≤ 10 → v.capacityVal = 10) ∧
      (10 < L.length → 10 < v.capacityVal) ∧
      ∀ L1 x L2, L = L1 ++ x :: L2 →
        ∃ v1 v2, add_all (vector.ctor : vector T) L1 = .ok v1 () ∧ v1.add x = .ok v2 () ∧
          v2.capacityVal = (if v1.sizeVal = v1.capacityVal then 2 * v1.capacityVal
            else v1.capacityVal) := by
  obtain ⟨v, hall, ⟨⟨hwf, _, k, hk, hcap⟩, hleast⟩, hsz⟩ :=
    add_all_tight L (vector.ctor : vector T) ctor_tight
      (by simp only [vector.ctor, Nat.zero_add]; exact hL)
  have hsz' : v.sizeVal = L.length := by rw [hsz]; simp only [vector.ctor, Nat.zero_add]
  have hkj : ∀ j, L.length ≤ 10 * 2 ^ j → k ≤ j := by
    intro j hj
    have h1 := hleast j (by omega)
    rw [hcap] at h1
    have h2 : 2 ^ k ≤ 2 ^ j := by omega
    exact (Nat.pow_le_pow_iff_right (by decide)).1 h2
  refine ⟨v, k, hall, hsz', hcap, ?_, hkj, fun h10 => ?_, fun h10 => ?_,
    fun L1 x L2 hsplit => ?_⟩
  · have := hwf.1
    omega
  · have hk0 : k = 0 := Nat.le_zero.1 (hkj 0 (by omega))
    rw [hcap, hk0]
    rfl
  · have := hwf.1
    omega
  · have hlen : L.length = L1.length + (L2.length + 1) := by
      rw [hsplit, List.length_append, List.length_cons]
    obtain ⟨v1, hall1, hinv1, hsz1⟩ :=
      add_all_tight L1 (vector.ctor : vector T) ctor_tight
        (by simp only [vector.ctor, Nat.zero_add]; omega)
    have hsz1' : v1.sizeVal = L1.length := by
      rw [hsz1]; simp only [vector.ctor, Nat.zero_add]
    obtain ⟨v2, hadd, _, _, _, hcap2⟩ := add_tight v1 x hinv1 (by omega)
    exact ⟨v1, v2, hall1, hadd, hcap2⟩

/-- C11 on the 11 values `0, .., 10`: size 11 and capacity 20. -/
theorem C11_append_n_capacity_witness :
    ∃ v, add_all (vector.ctor : vector Nat) (List.range 11) = .ok v () ∧
      v.sizeVal = 11 ∧ v.capacityVal = 20 := by
  obtain ⟨v, k, h1, h2, _, _, _, _, _, _⟩ :=
    C11_append_n_capacity (List.range 11) (by decide)
  have h3 : add_all (vector.ctor : vector Nat) (List.range 11)
      = .ok { (vector.ctor : vector Nat) with
          capacityVal := 20, sizeVal := 11,
          data := [0, 1, 2, 3, 4, 5, 6, 7, 8, 9, 10, 0, 0, 0, 0, 0, 0, 0, 0, 0] } () := rfl
  refine ⟨v, h1, h2, ?_⟩
  rw [h3] at h1
  cases h1
  rfl

/-! ## Invariants over sequences of calls -/

/-- What a normal return of `remove` tells. -/
theorem remove_returns (v v' : vector T) (index : Nat) (h : v.remove index = .ok v' ()) :
    index < v.sizeVal ∧ v'.sizeVal = v.sizeVal - 1 ∧ v'.capacityVal = v.capacityVal ∧
      v'.resize_func_ = v.resize_func_ := by
  by_cases hge : index ≥ v.sizeVal
  · simp only [vector.remove, if_pos hge] at h
    cases h
  · simp only [vector.remove, if_neg hge] at h
    cases hsh : remove_shift (v.sizeVal - 1 - index) index v.data with
    | none => simp only [hsh] at h; cases h
    | some d =>
      simp only [hsh, Outcome.ok.injEq, and_true] at h
      subst h
      exact ⟨by omega, rfl, rfl, rfl⟩

/-- Every member call that returns or throws keeps `size ≤ capacity`, whatever the growth
policy and the buffer. -/
theorem step_keeps_size_le_capacity [Inhabited T] (v v' : vector T) (op : Op T)
    (hle : v.sizeVal ≤ v.capacityVal)
    (h : v.step op = .ok v' () ∨ v.step op = .range_error v') :
    v'.sizeVal ≤ v'.capacityVal := by
  cases op with
  | add value =>
    rcases h with h | h
    · obtain ⟨v1, hres, _, hv'⟩ := add_returns v v' value h
      obtain ⟨hsz, _, hcap, hroom⟩ := resize_if_full_returns v v1 hres
      have hr : v.has_room := (add_returns_iff v value).1 ⟨v', h⟩
      have hmod := Nat.mod_le (v1.sizeVal + 1) SIZE_MOD
      rw [hv']
      show (v1.sizeVal + 1) % SIZE_MOD ≤ v1.capacityVal
      rw [hcap]
      unfold vector.has_room at hr
      split
      · next hfull => rw [if_pos hfull] at hr; omega
      · omega
    · exact absurd h (add_ne_range_error v v' value)
  | insert index value =>
    rcases h with h | h
    · obtain ⟨_, v1, hres, _, hcap', _, hsz'⟩ := insert_returns v v' index value h
      obtain ⟨hsz, _, hcap, hroom⟩ := resize_if_full_returns v v1 hres
      have hr : v.has_room := ((insert_returns_iff v index value).1 ⟨v', h⟩).2
      have hmod := Nat.mod_le (v1.sizeVal + 1) SIZE_MOD
      rw [hsz', hcap', hcap]
      unfold vector.has_room at hr
      split
      · next hfull => rw [if_pos hfull] at hr; omega
      · omega
    · rw [((insert_range_error v v' index value).1 h).2]
      exact hle
  | remove index =>
    rcases h with h | h
    · obtain ⟨_, hsz, hcap, _⟩ := remove_returns v v' index h
      omega
    · rw [((remove_range_error v v' index).1 h).2]
      exact hle
  | clear =>
    rcases h with h | h
    · simp only [vector.step, vector.clear, Outcome.ok.injEq, and_true] at h
      subst h
      exact Nat.zero_le _
    · cases h
  | resize =>
    rcases h with h | h
    · obtain ⟨nd, hc, rfl⟩ := resize_returns v v' h
      show v.sizeVal ≤ v.resize_func_ v.sizeVal
      rcases Nat.eq_zero_or_pos v.sizeVal with h0 | hpos
      · omega
      · have := (resize_copy_some _ _ _ _ _ hc hpos).2
        simp only [make_shared, List.length_replicate] at this
        omega
    · simp only [vector.step, vector.resize] at h
      cases hc : resize_copy v.data v.sizeVal 0 (make_shared T (v.resize_func_ v.sizeVal)) with
      | none => simp only [hc] at h; cases h
      | some nd => simp only [hc] at h; cases h

/-- A sequence of member calls that stays inside the buffers keeps `size ≤ capacity`. -/
theorem run_keeps_size_le_capacity [Inhabited T] : ∀ (ops : List (Op T)) (v v' : vector T),
    v.sizeVal ≤ v.capacityVal → run v ops = some v' → v'.sizeVal ≤ v'.capacityVal := by
  intro ops
  induction ops with
  | nil =>
    intro v v' hle h
    simp only [run, Option.some.injEq] at h
    rw [← h]
    exact hle
  | cons op rest ih =>
    intro v v' hle h
    cases hs : v.step op with
    | ok v1 a =>
      simp only [run, hs] at h
      exact ih v1 v' (step_keeps_size_le_capacity v v1 op hle (Or.inl hs)) h
    | range_error s =>
      simp only [run, hs] at h
      exact ih s v' (step_keeps_size_le_capacity v s op hle (Or.inr hs)) h
    | undefined => simp only [run, hs] at h; cases h

/-- The loop of `add` calls keeps `size ≤ capacity` when it returns. -/
theorem add_all_keeps_size_le_capacity [Inhabited T] : ∀ (L : List T) (v v' : vector T),
    v.sizeVal ≤ v.capacityVal → add_all v L = .ok v' () → v'.sizeVal ≤ v'.capacityVal := by
  intro L
  induction L with
  | nil =>
    intro v v' hle h
    simp only [add_all, Outcome.ok.injEq, and_true] at h
    rw [← h]
    exact hle
  | cons x rest ih =>
    intro v v' hle h
    cases hs : v.add x with
    | ok v1 a =>
      simp only [add_all, hs, Outcome.bind_ok] at h
      exact ih v1 v' (step_keeps_size_le_capacity v v1 (.add x) hle (Or.inl hs)) h
    | range_error s => simp only [add_all, hs, Outcome.bind_range_error] at h; cases h
    | undefined => simp only [add_all, hs, Outcome.bind_undefined] at h; cases h

/-- C13 (as amended): `size ≤ capacity` holds after `vector()`, `vector(resize)`, the
sized constructors when twice the initial size is a `size_type` value, and the
literal-sequence constructors when they return; every member call among `add`, `insert`,
`remove`, `clear`, `resize` that returns or throws keeps it, whatever the growth policy,
so it holds after every sequence of calls that stays inside the buffers; in particular
every `add` either leaves `size ≤ capacity` or does not complete. -/
theorem C13_size_le_capacity [Inhabited T] (f : Nat → Nat) (n : Nat) (L : List T)
    (ops : List (Op T)) (v v' : vector T) (x : T) :
    (vector.ctor : vector T).sizeVal ≤ (vector.ctor : vector T).capacityVal ∧
    (vector.ctor_resize f : vector T).sizeVal ≤ (vector.ctor_resize f : vector T).capacityVal ∧
    (n * 2 < SIZE_MOD →
      (vector.ctor_size n : vector T).sizeVal ≤ (vector.ctor_size n : vector T).capacityVal ∧
      (vector.ctor_size_resize n f : vector T).sizeVal
        ≤ (vector.ctor_size_resize n f : vector T).capacityVal) ∧
    (vector.ctor_list L = .ok v () → v.sizeVal ≤ v.capacityVal) ∧
    (vector.ctor_list_resize L f = .ok v () → v.sizeVal ≤ v.capacityVal) ∧
    (v.sizeVal ≤ v.capacityVal → ∀ op,
      v.step op = .ok v' () ∨ v.step op = .range_error v' → v'.sizeVal ≤ v'.capacityVal) ∧
    (v.sizeVal ≤ v.capacityVal → run v ops = some v' → v'.sizeVal ≤ v'.capacityVal) ∧
    (v.sizeVal ≤ v.capacityVal →
      (∃ v1, v.add x = .ok v1 () ∧ v1.sizeVal ≤ v1.capacityVal) ∨ v.add x = .undefined) := by
  refine ⟨Nat.zero_le _, Nat.zero_le _, fun hn => ?_, fun h => ?_, fun h => ?_,
    fun hle op h => step_keeps_size_le_capacity v v' op hle h,
    fun hle h => run_keeps_size_le_capacity ops v v' hle h, fun hle => ?_⟩
  · by_cases h10 : n > 10
    · have hmod : n * 2 % SIZE_MOD = n * 2 := Nat.mod_eq_of_lt hn
      constructor
      · simp only [vector.ctor_size, if_pos h10, hmod]
        omega
      · simp only [vector.ctor_size_resize, if_pos h10, hmod]
        omega
    · constructor
      · simp only [vector.ctor_size, if_neg h10, vector.ctor]
        omega
      · simp only [vector.ctor_size_resize, if_neg h10, vector.ctor]
        omega
  · exact add_all_keeps_size_le_capacity L _ v (Nat.zero_le _) h
  · exact add_all_keeps_size_le_capacity L _ v (Nat.zero_le _) h
  · cases hadd : v.add x with
    | ok v1 a =>
      exact Or.inl ⟨v1, rfl, step_keeps_size_le_capacity v v1 (.add x) hle (Or.inl hadd)⟩
    | range_error s => exact absurd hadd (add_ne_range_error v s x)
    | undefined => exact Or.inr rfl

/-- C13 on a run from the literal `{1, 2, 3}`: `insert(1, 99)`, a throwing `remove(7)`,
`resize()`, `clear()`, `add(5)` leave size 1 and capacity 8. -/
theorem C13_size_le_capacity_witness :
    ∃ v', run sample_literal [.insert 1 99, .remove 7, .resize, .clear, .add 5] = some v' ∧
      v'.sizeVal = 1 ∧ v'.capacityVal = 8 ∧ v'.sizeVal ≤ v'.capacityVal := by
  have hrun : run sample_literal [.insert 1 99, .remove 7, .resize, .clear, .add 5]
      = some { sample_literal with
          capacityVal := 8, sizeVal := 1, data := [5, 99, 2, 3, 0, 0, 0, 0] } := rfl
  exact ⟨_, hrun, rfl, rfl,
    (C13_size_le_capacity default_policy 0 [] _ sample_literal _ 0).2.2.2.2.2.2.1
      (by decide) hrun⟩

/-- C13 as stated fails: the sized constructor with the `size_type` value `2 ^ 63` records
size `2 ^ 63` and capacity `2 ^ 63 * 2 mod 2 ^ 64 = 0`, below the size; and on the full
container whose policy returns its argument `add` does not leave any state. -/
theorem C13_counterexample :
    (2 : Nat) ^ 63 < SIZE_MOD ∧
    (vector.ctor_size (2 ^ 63) : vector Nat).sizeVal = 2 ^ 63 ∧
    (vector.ctor_size (2 ^ 63) : vector Nat).capacityVal = 0 ∧
    ¬ (vector.ctor_size (2 ^ 63) : vector Nat).sizeVal
        ≤ (vector.ctor_size (2 ^ 63) : vector Nat).capacityVal ∧
    sample_same_policy.sizeVal ≤ sample_same_policy.capacityVal ∧
    sample_same_policy.add 10 = .undefined := by
  refine ⟨by decide, rfl, ?_, ?_, by decide, rfl⟩
  · simp only [vector.ctor_size, SIZE_MOD]
    norm_num
  · simp only [vector.ctor_size, SIZE_MOD]
    norm_num

/-- Under the doubling invariant, below `10 * 2 ^ 60` elements, the members are
`size_type` values, the policy grows a full container, and its result on a full container
is again a capacity of the invariant. -/
theorem doubling_facts (v : vector T) (hinv : v.DoublingInv) (hsz : v.sizeVal < 10 * 2 ^ 60) :
    v.InRange ∧ v.GrowsWhenFull ∧
      (v.sizeVal = v.capacityVal → ∃ k, k ≤ 60 ∧ v.resize_func_ v.sizeVal = 10 * 2 ^ k) := by
  obtain ⟨hwf, hpol, k, hk, hcap⟩ := hinv
  have hpow : (2 : Nat) ^ k ≤ 2 ^ 60 := Nat.pow_le_pow_right (by decide) hk
  have hcaplt : v.capacityVal < SIZE_MOD := by
    unfold SIZE_MOD
    omega
  have hfull : v.sizeVal = v.capacityVal →
      k + 1 ≤ 60 ∧ v.resize_func_ v.sizeVal = 10 * 2 ^ (k + 1) := by
    intro hf
    have hk1 : k < 60 := by
      by_contra hc
      have : (2 : Nat) ^ 60 ≤ 2 ^ k := Nat.pow_le_pow_right (by decide) (by omega)
      omega
    have hpow1 : (2 : Nat) ^ (k + 1) ≤ 2 ^ 60 := Nat.pow_le_pow_right (by decide) hk1
    have hsucc : (2 : Nat) ^ (k + 1) = 2 * 2 ^ k := by rw [Nat.pow_succ, Nat.mul_comm]
    refine ⟨hk1, ?_⟩
    rw [hpol, hf, hcap]
    unfold default_policy SIZE_MOD
    omega
  refine ⟨⟨hcaplt, Nat.lt_of_le_of_lt hwf.1 hcaplt, fun n _ => by
    rw [hpol]; exact default_policy_lt n⟩, fun hf => ?_, fun hf => ⟨k + 1, hfull hf⟩⟩
  have := (hfull hf).2
  have hpos : 0 < (2 : Nat) ^ k := Nat.pow_pos (by decide)
  have hsucc : (2 : Nat) ^ (k + 1) = 2 * 2 ^ k := by rw [Nat.pow_succ, Nat.mul_comm]
  omega

/-- Under the doubling invariant, below `10 * 2 ^ 60` elements, every call of `add`,
`insert`, `remove` or `clear` returns or throws, never leaves the buffer, keeps the
invariant, and adds at most one element. -/
theorem step_doubling [Inhabited T] (v : vector T) (op : Op T) (hinv : v.DoublingInv)
    (hop : op.is_resize = false) (hsz : v.sizeVal < 10 * 2 ^ 60) :
    ∃ v', (v.step op = .ok v' () ∨ (v.step op = .range_error v' ∧ v' = v)) ∧
      v'.DoublingInv ∧ v'.sizeVal ≤ v.sizeVal + 1 := by
  obtain ⟨hr, hg, hfull⟩ := doubling_facts v hinv hsz
  obtain ⟨hwf, hpol, k, hk, hcap⟩ := hinv
  have hdl : v.sizeVal ≤ v.data.length := by rw [hwf.2]; exact hwf.1
  cases op with
  | add value =>
    obtain ⟨v', hadd, hinv', hsz', _, _⟩ := add_doubling v value ⟨hwf, hpol, k, hk, hcap⟩ hsz
    exact ⟨v', Or.inl hadd, hinv', by omega⟩
  | insert index value =>
    by_cases hidx : index ≤ v.sizeVal
    · obtain ⟨v', hins, hsz', hpol', hcap', hlen', hlt', _⟩ :=
        insert_ok v index value hwf hr hg hidx
      refine ⟨v', Or.inl hins, ⟨⟨by omega, hlen'⟩, by rw [hpol', hpol], ?_⟩, by omega⟩
      by_cases hf : v.sizeVal = v.capacityVal
      · obtain ⟨k', hk', hres⟩ := hfull hf
        exact ⟨k', hk', by rw [hcap', if_pos hf, hres]⟩
      · exact ⟨k, hk, by rw [hcap', if_neg hf, hcap]⟩
    · exact ⟨v, Or.inr ⟨(insert_range_error v v index value).2 ⟨by omega, rfl⟩, rfl⟩,
        ⟨hwf, hpol, k, hk, hcap⟩, by omega⟩
  | remove index =>
    by_cases hidx : index < v.sizeVal
    · obtain ⟨d, hrem, hdlen, _⟩ := remove_ok v index hdl hidx
      refine ⟨_, Or.inl hrem, ⟨⟨?_, ?_⟩, hpol, k, hk, hcap⟩, ?_⟩
      · show v.sizeVal - 1 ≤ v.capacityVal
        have := hwf.1
        omega
      · show d.length = v.capacityVal
        rw [hdlen, hwf.2]
      · show v.sizeVal - 1 ≤ v.sizeVal + 1
        omega
    · exact ⟨v, Or.inr ⟨(remove_range_error v v index).2 ⟨by omega, rfl⟩, rfl⟩,
        ⟨hwf, hpol, k, hk, hcap⟩, by omega⟩
  | clear =>
    exact ⟨{ v with sizeVal := 0 }, Or.inl rfl, ⟨⟨Nat.zero_le _, hwf.2⟩, hpol, k, hk, hcap⟩,
      Nat.zero_le _⟩
  | resize => cases hop

/-- Under the doubling invariant a sequence of `add`, `insert`, `remove`, `clear` calls
that cannot bring the size above `10 * 2 ^ 60` stays inside the buffers and keeps the
invariant. -/
theorem run_doubling [Inhabited T] : ∀ (ops : List (Op T)) (v : vector T), v.DoublingInv →
    (∀ op, op ∈ ops → op.is_resize = false) → v.sizeVal + ops.length ≤ 10 * 2 ^ 60 →
    ∃ v', run v ops = some v' ∧ v'.DoublingInv := by
  intro ops
  induction ops with
  | nil =>
    intro v hinv _ _
    exact ⟨v, rfl, hinv⟩
  | cons op rest ih =>
    intro v hinv hno hlen
    rw [List.length_cons] at hlen
    obtain ⟨v1, hstep, hinv1, hsz1⟩ :=
      step_doubling v op hinv (hno op (List.mem_cons_self _ _)) (by omega)
    obtain ⟨v', hrun, hinv'⟩ :=
      ih v1 hinv1 (fun o ho => hno o (List.mem_cons_of_mem _ ho)) (by omega)
    refine ⟨v', ?_, hinv'⟩
    rcases hstep with h | ⟨h, _⟩
    · simp only [run, h, hrun]
    · simp only [run, h, hrun]

/-- C19: a container made by `vector()` or by the literal-sequence constructor with the
default policy (`vector()` is the literal `{}`), then modified by any sequence of `add`,
`insert`, `remove` and `clear` calls in which throwing calls leave it unchanged, with no
explicit `resize()` and no more than `10 * 2 ^ 60` elements and calls in all (beyond which
the doubled capacity is no `size_type` value): the construction and every call stay inside
the buffer, and the state after them has `size ≤ capacity`, a buffer of exactly `capacity`
slots and capacity `10 * 2 ^ k` for some `k`; this holds call by call, as every such call
on a state with these properties and fewer than `10 * 2 ^ 60` elements returns or throws
with the state unchanged, and keeps them. -/
theorem C19_default_policy_invariant [Inhabited T] (L : List T) (ops : List (Op T))
    (v : vector T) (op : Op T) :
    ((∀ o, o ∈ ops → o.is_resize = false) → L.length + ops.length ≤ 10 * 2 ^ 60 →
      ∃ v0 v', vector.ctor_list L = .ok v0 () ∧ run v0 ops = some v' ∧
        v'.sizeVal ≤ v'.capacityVal ∧ v'.data.length = v'.capacityVal ∧
        (∃ k, v'.capacityVal = 10 * 2 ^ k) ∧ v'.resize_func_ = default_policy) ∧
    vector.ctor_list ([] : List T) = .ok vector.ctor () ∧
    (v.DoublingInv → op.is_resize = false → v.sizeVal < 10 * 2 ^ 60 →
      ∃ v', (v.step op = .ok v' () ∨ (v.step op = .range_error v' ∧ v' = v)) ∧
        v'.DoublingInv) ∧
    (v.DoublingInv → v.sizeVal ≤ v.capacityVal ∧ v.data.length = v.capacityVal ∧
      ∃ k, v.capacityVal = 10 * 2 ^ k) := by
  refine ⟨fun hno hlen => ?_, rfl, fun hinv hop hsz => ?_, fun hinv => ?_⟩
  · obtain ⟨v0, hall, hinv0, hsz0, _⟩ :=
      add_all_doubling L (vector.ctor : vector T) ctor_doubling
        (by simp only [vector.ctor, Nat.zero_add]; omega)
    have hsz0' : v0.sizeVal = L.length := by
      rw [hsz0]; simp only [vector.ctor, Nat.zero_add]
    obtain ⟨v', hrun, ⟨hwf, hpol, k, _, hcap⟩⟩ := run_doubling ops v0 hinv0 hno (by omega)
    exact ⟨v0, v', hall, hrun, hwf.1, hwf.2, ⟨k, hcap⟩, hpol⟩
  · obtain ⟨v', hstep, hinv', _⟩ := step_doubling v op hinv hop hsz
    exact ⟨v', hstep, hinv'⟩
  · obtain ⟨hwf, _, k, _, hcap⟩ := hinv
    exact ⟨hwf.1, hwf.2, k, hcap⟩

/-- C19 on a run from the literal `{1, 2, 3}`: eight `add` calls (the last one grows the
buffer), a throwing `insert(50, 0)`, `remove(0)`, `insert(0, 9)` and `clear()` stay inside
the buffer and end with size 0, capacity 20 and a buffer of 20 slots. -/
theorem C19_default_policy_invariant_witness :
    ∃ v0 v', vector.ctor_list [1, 2, 3] = .ok v0 () ∧
      run v0 [.add 4, .add 5, .add 6, .add 7, .add 8, .add 9, .add 10, .add 11,
        .insert 50 0, .remove 0, .insert 0 9, .clear] = some v' ∧
      v'.sizeVal ≤ v'.capacityVal ∧ v'.data.length = v'.capacityVal ∧
      v'.capacityVal = 20 := by
  obtain ⟨v0, v', h1, h2, h3, h4, _, _⟩ :=
    (C19_default_policy_invariant [1, 2, 3]
      [.add 4, .add 5, .add 6, .add 7, .add 8, .add 9, .add 10, .add 11,
        .insert 50 0, .remove 0, .insert 0 9, .clear] sample_literal .clear).1
      (by
        intro o ho
        simp only [List.mem_cons, List.mem_singleton, List.not_mem_nil, or_false] at ho
        rcases ho with h | h | h | h | h | h | h | h | h | h | h | h <;> rw [h] <;> rfl)
      (by decide)
  have hlit : vector.ctor_list [1, 2, 3] = .ok sample_literal () := rfl
  have hv0 : v0 = sample_literal := by
    rw [hlit] at h1
    cases h1
    rfl
  subst hv0
  have hrun : run sample_literal [.add 4, .add 5, .add 6, .add 7, .add 8, .add 9, .add 10,
      .add 11, .insert 50 0, .remove 0, .insert 0 9, .clear]
      = some { sample_literal with
          capacityVal := 20, sizeVal := 0,
          data := [9, 2, 3, 4, 5, 6, 7, 8, 9, 10, 11, 0, 0, 0, 0, 0, 0, 0, 0, 0] } := rfl
  refine ⟨_, v', hlit, h2, h3, h4, ?_⟩
  rw [hrun] at h2
  cases h2
  rfl

end lemmas

end usu
